import Mathlib

/-!
# A shallow embedding of `compressed_quadtree.h`

This file embeds the compressed quadtree of `include/compressed_quadtree.h`
(template class `CompressedQuadtree`) in Lean and proves properties of the
construction (`worker`, the constructor) and of the approximate
nearest-neighbour query (`knn`, `min_pt_dist_to_node`).

Modelling conventions:

* `double` coordinates are modelled by exact rationals `ℚ`.
* A `Point` — an indexable fixed-capacity coordinate vector — is modelled as
  a `List ℚ` read through `coord` (`operator[]`); only indices `< dim` are
  ever read by tree code on well-formed input, and reading past the model
  list yields `0` (one fixed resolution of reading a `Point` entry the code
  never wrote).  The `Point *` stored in a leaf is modelled by the point's
  index into the caller's array, the array itself by a map `P : ℕ → Pt`.
* The `DBL_MAX` sentinel used by `knn` and `min_pt_dist_to_node` is modelled
  by `Option ℚ` with `none` for the sentinel (every rational value compares
  below it, faithfully to every finite `double`).
* `min_pt_dist_to_node` reads its local `dist` without initializing it on
  every dimension where the query coordinate is inside the node's interval;
  the value of such a read is indeterminate in C++.  The embedding makes
  this explicit with a parameter `junk : ℕ → ℚ` giving, per dimension, the
  value obtained by such a read.  On inputs that never perform such a read
  the result does not depend on `junk`.
* Unbounded recursion (`worker` on coincident points) and the query loop are
  given explicit fuel; `none` means the fuel ran out.
* `std::pop_heap`/`std::push_heap` on `std::vector<NodeDistance>` (with
  `NodeDistance::operator<` comparing `distance` in reverse, i.e. a
  min-priority-queue on `distance`) are modelled by their contract: the
  queue is the vector's contents, a push appends, and popping removes an
  entry of minimal distance (the first such entry, fixing one legal heap
  tie-break).
-/

/-- A point: an indexable coordinate vector (`Point`). -/
abbrev Pt := List ℚ

/-- Coordinate access `p[d]`. -/
def coord (p : Pt) (d : ℕ) : ℚ := p.getD d 0

/-- `struct Node`: the children array `nodes` (null, or `2^dim` possibly-null
slots), the midpoint `mid`, the half side length `radius`, and the stored
point `pt` (null or, in this model, an index into the caller's array). -/
inductive Node where
  | mk (mid : Pt) (radius : ℚ) (children : Option (List (Option Node))) (pt : Option ℕ)

/-- Field `Node::mid`. -/
def Node.mid : Node → Pt
  | .mk m _ _ _ => m

/-- Field `Node::radius`. -/
def Node.radius : Node → ℚ
  | .mk _ r _ _ => r

/-- Field `Node::nodes` (the children array). -/
def Node.children : Node → Option (List (Option Node))
  | .mk _ _ cs _ => cs

/-- Field `Node::pt`. -/
def Node.pt : Node → Option ℕ
  | .mk _ _ _ p => p

/-- The constant `locate_eps` of `Node::in_node`. -/
def locateEps : ℚ := 1/1000

/-- `Node::in_node`: `in` stays true unless some dimension `d < dim` has
`mid[d] - radius - pt[d] > locate_eps` or `pt[d] - mid[d] - radius >
locate_eps`. -/
def Node.in_node (node : Node) (p : Pt) (dim : ℕ) : Bool :=
  (List.range dim).all fun d =>
    !(coord node.mid d - node.radius - coord p d > locateEps) &&
    !(coord p d - coord node.mid d - node.radius > locateEps)

/-- The orthant index computed in `worker`'s partition loop: starting from
`n = 0`, bit `d` is added when `pt[d] > mid[d]`. -/
def orthantIndex (dim : ℕ) (mid : Pt) (p : Pt) : ℕ :=
  (List.range dim).foldl (fun n d => if coord p d > coord mid d then n + 2 ^ d else n) 0

/-- The `dim` coordinates `mid[0..dim)` written by `worker`'s copy loop
(`node->mid[d] = mid[d]`). -/
def copyMid (dim : ℕ) (mid : Pt) : Pt :=
  (List.range dim).map (coord mid)

/-- The child midpoint `new_mid` computed in `worker` for slot `n`:
`mid[d] + new_radius` when `n & (1 << d)` is set, else `mid[d] - new_radius`,
for each `d < dim`. -/
def childMid (dim : ℕ) (mid : Pt) (newRadius : ℚ) (n : ℕ) : Pt :=
  (List.range dim).map fun d =>
    if n.testBit d then coord mid d + newRadius else coord mid d - newRadius

/-- The `EndBuildFn` hook: it receives the node under construction (with its
`mid` and `radius` set, the other fields still null) and the depth. -/
abbrev EndBuildFn := Node → ℕ → Bool

/-- The default `EndBuildFn::operator()`, which always returns `false`. -/
def defaultEndBuildFn : EndBuildFn := fun _ _ => false

/-- `CompressedQuadtree::worker`, the recursive tree builder, with explicit
recursion fuel (`none`: fuel ran out).  `pts` holds the indices of the
remaining points.  The bucket `node_pts[n]` of the partition loop is
recovered as `pts.filter`, which preserves the `push_back` order.  With one
point left a leaf is made from `pts[0]` (`fn` is also invoked there, with
its result ignored; the hook is pure in this model).  Otherwise, unless `fn`
halts the subdivision, each non-empty bucket is built recursively at half
the radius; if fewer than 2 buckets were non-empty (`ninteresting < 2`) the
node is discarded and replaced by its first non-null child, if any. -/
def worker (P : ℕ → Pt) (dim : ℕ) (fn : EndBuildFn) :
    ℕ → Pt → ℚ → List ℕ → ℕ → Option Node
  | 0, _, _, _, _ => none
  | fuel + 1, mid, radius, pts, depth =>
    if pts.length = 1 then
      some (Node.mk (copyMid dim mid) radius none (some pts.headI))
    else if fn (Node.mk (copyMid dim mid) radius none none) depth then
      some (Node.mk (copyMid dim mid) radius none none)
    else
      match (List.range (2 ^ dim)).mapM (fun n =>
          let bucket := pts.filter fun i => orthantIndex dim mid (P i) = n
          if bucket.isEmpty then some (none : Option Node)
          else (worker P dim fn fuel (childMid dim mid (radius / 2) n) (radius / 2)
                  bucket (depth + 1)).map some) with
      | none => none
      | some children =>
        let ninteresting := (children.filterMap id).length
        if ninteresting < 2 then
          match (children.filterMap id).head? with
          | some c => some c
          | none => some (Node.mk (copyMid dim mid) radius (some children) none)
        else
          some (Node.mk (copyMid dim mid) radius (some children) none)

/-- The midpoint computed by the constructor `CompressedQuadtree(...)`:
`mid[d] = (range[d*dim] + range[d*dim + 1]) / 2` for `d < dim`. -/
def initMid (dim : ℕ) (range : List ℚ) : Pt :=
  (List.range dim).map fun d => (coord range (d * dim) + coord range (d * dim + 1)) / 2

/-- The radius computed by the constructor: starting from `0`, each
dimension's `side = (range[d*dim + 1] - range[d*dim]) / 2` replaces the
current value when strictly larger. -/
def initRadius (dim : ℕ) (range : List ℚ) : ℚ :=
  (List.range dim).foldl
    (fun radius d =>
      let side := (coord range (d * dim + 1) - coord range (d * dim)) / 2
      if side > radius then side else radius) 0

/-- The constructor `CompressedQuadtree::CompressedQuadtree`: computes the
initial region and calls `worker` on the list of all `n` point indices at
depth `0`. -/
def buildRoot (dim : ℕ) (P : ℕ → Pt) (n : ℕ) (range : List ℚ) (fn : EndBuildFn)
    (fuel : ℕ) : Option Node :=
  worker P dim fn fuel (initMid dim range) (initRadius dim range) (List.range n) 0

/-- Squared Euclidean distance accumulated over dimensions `d < dim`,
as in the leaf branch of `knn` (`dist += (p[d]-q[d]) * (p[d]-q[d])`). -/
def sqDist (dim : ℕ) (p q : Pt) : ℚ :=
  (List.range dim).foldl (fun acc d => acc + (coord p d - coord q d) * (coord p d - coord q d)) 0

/-- One iteration of the loop in `min_pt_dist_to_node`, acting on the state
`(inside, min_dist)`.  `min_dist = none` models the `DBL_MAX` initial value,
above every assigned value.  The local `dist` is assigned only when the query
coordinate is strictly outside `[mid[d]-radius, mid[d]+radius]`; otherwise
the code still executes `if (dist < min_dist) min_dist = dist;` on the
uninitialized `dist`, whose indeterminate value is modelled by `junk d`. -/
def mpdStep (q mid : Pt) (radius : ℚ) (junk : ℕ → ℚ) (s : Bool × Option ℚ) (d : ℕ) :
    Bool × Option ℚ :=
  let dist : ℚ :=
    if coord q d < coord mid d - radius then coord mid d - radius - coord q d
    else if coord q d > coord mid d + radius then coord q d - (coord mid d + radius)
    else junk d
  let inside : Bool :=
    if coord q d < coord mid d - radius then false
    else if coord q d > coord mid d + radius then false
    else s.1
  let minDist : Option ℚ :=
    match s.2 with
    | none => some dist
    | some m => if dist < m then some dist else some m
  (inside, minDist)

/-- `CompressedQuadtree::min_pt_dist_to_node`: runs the per-dimension loop
and returns `0.0` if `inside` survived, else `min_dist * min_dist`.  (For
`dim = 0` the code would return `DBL_MAX * DBL_MAX`; that corner is mapped
to `0`, and no claim is made about `dim = 0`.) -/
def minPtDistToNode (dim : ℕ) (junk : ℕ → ℚ) (q : Pt) (node : Node) : ℚ :=
  let s := (List.range dim).foldl (mpdStep q node.mid node.radius junk) (true, none)
  if s.1 then 0 else
    match s.2 with
    | none => 0
    | some m => m * m

/-- The insertion scan of the `knn` leaf branch: the iterator walks past the
entries whose distance is strictly below the new distance, and the new pair
is inserted there (hence before every entry of equal distance). -/
def insertResult (e : ℕ × ℚ) : List (ℕ × ℚ) → List (ℕ × ℚ)
  | [] => [e]
  | x :: rest => if x.2 < e.2 then x :: insertResult e rest else e :: x :: rest

/-- `kth_dist` of the `knn` internal branch: `none` models `DBL_MAX`
(fewer than `k` results so far), otherwise the last (largest) distance of
the current result list. -/
def kthDist (k : ℕ) (qr : List (ℕ × ℚ)) : Option ℚ :=
  if qr.length < k then none else (qr.getLast?).map Prod.snd

/-- The comparison `min_dist < kth_dist` with the `DBL_MAX` sentinel. -/
def ltKth (v : ℚ) (kth : Option ℚ) : Bool :=
  match kth with
  | none => true
  | some m => v < m

/-- The comparison `kth_dist <= x` with the `DBL_MAX` sentinel. -/
def kthLe (kth : Option ℚ) (x : ℚ) : Bool :=
  match kth with
  | none => false
  | some m => m ≤ x

/-- Popping the priority queue (`std::pop_heap` followed by reading and
removing the back): removes an entry of minimal `distance` from the queue.
The queue is modelled by its contents; among several minimal entries the
first is taken, fixing one legal heap tie-break. -/
def popMin : List (Node × ℚ) → Option ((Node × ℚ) × List (Node × ℚ))
  | [] => none
  | e :: rest =>
    if rest.all fun x => e.2 ≤ x.2 then some (e, rest)
    else match popMin rest with
      | none => none
      | some (m, rest') => some (m, e :: rest')

/-- Outcome of the `knn` loop: a result list, or the crash of the leaf branch
dereferencing `node->pt` on a node that stores no point. -/
inductive KnnOutcome where
  | ok (qr : List (ℕ × ℚ))
  | nullDeref
deriving DecidableEq

/-- The `while (!pq.empty())` loop of `CompressedQuadtree::knn`, with fuel
(`none`: fuel ran out).  One iteration pops a minimal entry; a leaf inserts
its point's exact squared distance into the sorted result list, trimming it
back to `k` entries; an internal node first checks the early-termination
condition `kth_dist <= (1.0 + eps) * node_dist` and otherwise pushes every
non-null child whose lower bound is below `kth_dist`. -/
def knnLoop (P : ℕ → Pt) (dim k : ℕ) (q : Pt) (eps : ℚ) (junk : ℕ → ℚ) :
    ℕ → List (Node × ℚ) → List (ℕ × ℚ) → Option KnnOutcome
  | 0, pq, qr => if pq.isEmpty then some (.ok qr) else none
  | fuel + 1, pq, qr =>
    match popMin pq with
    | none => some (.ok qr)
    | some ((node, nodeDist), pq') =>
      match node.children with
      | none =>
        match node.pt with
        | none => some .nullDeref
        | some i =>
          let dist := sqDist dim (P i) q
          let qr' := insertResult (i, dist) qr
          let qr'' := if qr'.length > k then qr'.dropLast else qr'
          knnLoop P dim k q eps junk fuel pq' qr''
      | some cs =>
        let kth := kthDist k qr
        if kthLe kth ((1 + eps) * nodeDist) then some (.ok qr)
        else
          let pushed := cs.filterMap fun c =>
            match c with
            | none => none
            | some child =>
              let minDist := minPtDistToNode dim junk q child
              if ltKth minDist kth then some (child, minDist) else none
          knnLoop P dim k q eps junk fuel (pq' ++ pushed) qr

/-- `CompressedQuadtree::knn`: seeds the queue with `(root, 0.0)` and runs
the loop on an empty result list. -/
def knn (P : ℕ → Pt) (dim : ℕ) (root : Node) (k : ℕ) (q : Pt) (eps : ℚ)
    (junk : ℕ → ℚ) (fuel : ℕ) : Option KnnOutcome :=
  knnLoop P dim k q eps junk fuel [(root, 0)] []

/-- A benign resolution of the indeterminate reads (all zeroes), used when
evaluating the code on concrete inputs. -/
def zeroJunk : ℕ → ℚ := fun _ => 0

/-- Modelled from the spec: stable sorted insertion for the brute-force
reference scan — an entry goes after every entry of smaller or equal
distance. -/
def insertScan (e : ℕ × ℚ) : List (ℕ × ℚ) → List (ℕ × ℚ)
  | [] => [e]
  | x :: rest => if x.2 ≤ e.2 then x :: insertScan e rest else e :: x :: rest

/-- Modelled from the spec: the full brute-force linear scan, all `n` points
paired with their squared distance to `q`, sorted ascending by distance. -/
def bruteFull (P : ℕ → Pt) (dim n : ℕ) (q : Pt) : List (ℕ × ℚ) :=
  ((List.range n).map fun i => (i, sqDist dim (P i) q)).foldl
    (fun acc e => insertScan e acc) []

/-- Modelled from the spec: the first `k` entries of the brute-force scan. -/
def bruteForce (P : ℕ → Pt) (dim n k : ℕ) (q : Pt) : List (ℕ × ℚ) :=
  (bruteFull P dim n q).take k

/-- Two result lists contain the same point indices, as sets (decidable). -/
def sameIndexSet (l₁ l₂ : List (ℕ × ℚ)) : Bool :=
  ((l₁.map Prod.fst).all fun i => (l₂.map Prod.fst).contains i) &&
  ((l₂.map Prod.fst).all fun i => (l₁.map Prod.fst).contains i)

/-- Number of nodes of a tree (used as fuel bound for the query loop). -/
def Node.size : Node → ℕ
  | .mk _ _ none _ => 1
  | .mk _ _ (some cs) _ => 1 + sizeAux cs
where sizeAux : List (Option Node) → ℕ
  | [] => 0
  | none :: rest => sizeAux rest
  | some c :: rest => c.size + sizeAux rest

/-- All nodes of a tree (the node itself and, slot by slot, the nodes of its
non-null children). -/
def Node.allNodes : Node → List Node
  | .mk m r none p => [.mk m r none p]
  | .mk m r (some cs) p => .mk m r (some cs) p :: allAux cs
where allAux : List (Option Node) → List Node
  | [] => []
  | none :: rest => allAux rest
  | some c :: rest => c.allNodes ++ allAux rest

/-- Indices of the points stored at the leaves of a tree, in slot order. -/
def Node.leafIdxs : Node → List ℕ
  | .mk _ _ none none => []
  | .mk _ _ none (some i) => [i]
  | .mk _ _ (some cs) _ => leafAux cs
where leafAux : List (Option Node) → List ℕ
  | [] => []
  | none :: rest => leafAux rest
  | some c :: rest => c.leafIdxs ++ leafAux rest

/-! ## Basic facts about the geometric helpers -/

@[simp] theorem Node.mid_mk (m : Pt) (r : ℚ) (cs : Option (List (Option Node)))
    (p : Option ℕ) : (Node.mk m r cs p).mid = m := rfl

@[simp] theorem Node.radius_mk (m : Pt) (r : ℚ) (cs : Option (List (Option Node)))
    (p : Option ℕ) : (Node.mk m r cs p).radius = r := rfl

@[simp] theorem Node.children_mk (m : Pt) (r : ℚ) (cs : Option (List (Option Node)))
    (p : Option ℕ) : (Node.mk m r cs p).children = cs := rfl

@[simp] theorem Node.pt_mk (m : Pt) (r : ℚ) (cs : Option (List (Option Node)))
    (p : Option ℕ) : (Node.mk m r cs p).pt = p := rfl

/-- `p` lies (exactly) in the hypercube of center `m` and radius `r` on the
first `dim` dimensions. -/
def inRegion (dim : ℕ) (m : Pt) (r : ℚ) (p : Pt) : Prop :=
  ∀ d < dim, coord m d - r ≤ coord p d ∧ coord p d ≤ coord m d + r

/-- The hypercube `(m₁, r₁)` is contained in the hypercube `(m₂, r₂)` on the
first `dim` dimensions. -/
def regionSub (dim : ℕ) (m₁ : Pt) (r₁ : ℚ) (m₂ : Pt) (r₂ : ℚ) : Prop :=
  ∀ d < dim, coord m₂ d - r₂ ≤ coord m₁ d - r₁ ∧ coord m₁ d + r₁ ≤ coord m₂ d + r₂

theorem regionSub_refl (dim : ℕ) (m : Pt) (r : ℚ) : regionSub dim m r m r :=
  fun _ _ => ⟨le_refl _, le_refl _⟩

theorem regionSub_trans {dim : ℕ} {m₁ m₂ m₃ : Pt} {r₁ r₂ r₃ : ℚ}
    (h₁ : regionSub dim m₁ r₁ m₂ r₂) (h₂ : regionSub dim m₂ r₂ m₃ r₃) :
    regionSub dim m₁ r₁ m₃ r₃ := by
  intro d hd
  exact ⟨le_trans (h₂ d hd).1 (h₁ d hd).1, le_trans (h₁ d hd).2 (h₂ d hd).2⟩

theorem inRegion_of_regionSub {dim : ℕ} {m₁ m₂ : Pt} {r₁ r₂ : ℚ} {p : Pt}
    (hsub : regionSub dim m₁ r₁ m₂ r₂) (hp : inRegion dim m₁ r₁ p) :
    inRegion dim m₂ r₂ p := by
  intro d hd
  exact ⟨le_trans (hsub d hd).1 (hp d hd).1, le_trans (hp d hd).2 (hsub d hd).2⟩

@[simp] theorem coord_copyMid {dim : ℕ} {mid : Pt} {d : ℕ} (hd : d < dim) :
    coord (copyMid dim mid) d = coord mid d := by
  unfold copyMid coord
  rw [List.getD_eq_getElem?_getD, List.getElem?_map]
  simp [List.getElem?_range hd, coord]

theorem coord_childMid {dim : ℕ} {mid : Pt} {nr : ℚ} {n d : ℕ} (hd : d < dim) :
    coord (childMid dim mid nr n) d =
      if n.testBit d then coord mid d + nr else coord mid d - nr := by
  unfold childMid coord
  rw [List.getD_eq_getElem?_getD, List.getElem?_map]
  simp [List.getElem?_range hd]

/-- The partition loop in closed form: one step per dimension. -/
theorem orthantIndex_succ (dim : ℕ) (mid p : Pt) :
    orthantIndex (dim + 1) mid p =
      orthantIndex dim mid p + (if coord p dim > coord mid dim then 2 ^ dim else 0) := by
  unfold orthantIndex
  rw [List.range_succ, List.foldl_append]
  simp only [List.foldl_cons, List.foldl_nil]
  split <;> simp

theorem orthantIndex_lt (dim : ℕ) (mid p : Pt) : orthantIndex dim mid p < 2 ^ dim := by
  induction dim with
  | zero => simp [orthantIndex]
  | succ n ih =>
    rw [orthantIndex_succ, pow_succ]
    split <;> omega

theorem orthantIndex_testBit (dim : ℕ) (mid p : Pt) {d : ℕ} (hd : d < dim) :
    (orthantIndex dim mid p).testBit d = decide (coord p d > coord mid d) := by
  induction dim with
  | zero => omega
  | succ n ih =>
    rw [orthantIndex_succ]
    rcases Nat.lt_succ_iff_lt_or_eq.mp hd with h | h
    · split
      · rw [Nat.add_comm, Nat.testBit_two_pow_add_gt h]
        exact ih h
      · rw [Nat.add_zero]
        exact ih h
    · subst h
      have hlt := orthantIndex_lt d mid p
      by_cases hgt : coord p d > coord mid d
      · rw [if_pos hgt, Nat.add_comm, Nat.testBit_two_pow_add_eq,
          Nat.testBit_lt_two_pow hlt]
        simp [hgt]
      · rw [if_neg hgt, Nat.add_zero, Nat.testBit_lt_two_pow hlt]
        simp [hgt]

/-- A point of the bucket for slot `n` lies in the orthant region for `n`. -/
theorem inRegion_childMid {dim : ℕ} {mid p : Pt} {radius : ℚ}
    (hp : inRegion dim mid radius p)
    (n : ℕ) (hn : n = orthantIndex dim mid p) :
    inRegion dim (childMid dim mid (radius / 2) n) (radius / 2) p := by
  intro d hd
  rw [coord_childMid hd, hn, orthantIndex_testBit dim mid p hd]
  rcases hp d hd with ⟨hlo, hhi⟩
  by_cases hgt : coord p d > coord mid d
  · rw [decide_eq_true hgt, if_pos rfl]
    constructor <;> linarith
  · rw [decide_eq_false hgt]
    simp only [Bool.false_eq_true, if_false]
    push_neg at hgt
    constructor <;> linarith

/-- The orthant region for any slot is contained in the parent region
(for a nonnegative radius). -/
theorem regionSub_childMid {dim : ℕ} {mid : Pt} {radius : ℚ} (hr : 0 ≤ radius) (n : ℕ) :
    regionSub dim (childMid dim mid (radius / 2) n) (radius / 2) mid radius := by
  intro d hd
  rw [coord_childMid hd]
  split <;> constructor <;> linarith

/-! ## Generic list facts used by the inductions -/

theorem mapM_option_some_iff {α β : Type} {f : α → Option β} {l : List α} {ys : List β} :
    l.mapM f = some ys ↔ List.Forall₂ (fun a b => f a = some b) l ys := by
  induction l generalizing ys with
  | nil =>
    simp only [List.mapM_nil, pure, Option.some.injEq]
    constructor
    · rintro rfl; exact List.Forall₂.nil
    · rintro h; cases h; rfl
  | cons a l ih =>
    simp only [List.mapM_cons]
    constructor
    · intro h
      rcases hfa : f a with _ | b
      · rw [hfa] at h; simp at h
      · rw [hfa] at h
        simp only [Option.bind_eq_bind, Option.some_bind] at h
        rcases hl : l.mapM f with _ | zs
        · rw [hl] at h; simp at h
        · rw [hl] at h
          simp only [Option.some_bind, pure, Option.some.injEq] at h
          subst h
          exact List.Forall₂.cons hfa (ih.mp hl)
    · intro h
      rcases h with _ | ⟨hfa, hrest⟩
      rw [hfa, ih.mpr hrest]
      rfl

theorem mapM_range_length {β : Type} {f : ℕ → Option β} {N : ℕ} {ys : List β}
    (h : (List.range N).mapM f = some ys) : ys.length = N := by
  have := List.Forall₂.length_eq (mapM_option_some_iff.mp h)
  simpa using this.symm

theorem mapM_range_getD {β : Type} {f : ℕ → Option β} {N : ℕ} {ys : List β}
    (h : (List.range N).mapM f = some ys) (dflt : β) {m : ℕ} (hm : m < N) :
    f m = some (ys.getD m dflt) := by
  have hall := mapM_option_some_iff.mp h
  have hlen : ys.length = N := mapM_range_length h
  have hget := List.forall₂_iff_get.mp hall
  have hm' : m < ys.length := by omega
  have := hget.2 m (by simpa using hm) (by omega)
  simpa [List.getD_eq_getElem?_getD, List.getElem?_eq_getElem hm',
    List.get_eq_getElem] using this

theorem mapM_range_mem {β : Type} {f : ℕ → Option β} {N : ℕ} {ys : List β}
    (h : (List.range N).mapM f = some ys) {b : β} (hb : b ∈ ys) :
    ∃ m < N, f m = some b := by
  have hall := mapM_option_some_iff.mp h
  rcases List.getElem_of_mem hb with ⟨j, hj, hjb⟩
  have hlen : ys.length = N := mapM_range_length h
  have hget := List.forall₂_iff_get.mp hall
  refine ⟨j, by omega, ?_⟩
  have := hget.2 j (by simp; omega) hj
  simpa [List.get_eq_getElem, List.getElem_range, hjb] using this

/-! ## Facts about the queue pop -/

theorem popMin_eq_none_iff {l : List (Node × ℚ)} : popMin l = none ↔ l = [] := by
  induction l with
  | nil => simp [popMin]
  | cons e rest ih =>
    simp only [popMin]
    split
    · simp
    · rcases h : popMin rest with _ | ⟨m, rest'⟩
      · simp only [h]
        have : rest = [] := ih.mp h
        subst this
        simp [popMin] at h
        simp_all [List.all_nil]
      · simp [h]

theorem popMin_perm {l : List (Node × ℚ)} {e : Node × ℚ} {l' : List (Node × ℚ)}
    (h : popMin l = some (e, l')) : l.Perm (e :: l') := by
  induction l generalizing e l' with
  | nil => simp [popMin] at h
  | cons a rest ih =>
    rw [popMin] at h
    split at h
    · simp only [Option.some.injEq, Prod.mk.injEq] at h
      obtain ⟨rfl, rfl⟩ := h
      exact List.Perm.refl _
    · rcases hm : popMin rest with _ | ⟨me, rest''⟩
      · rw [hm] at h; simp at h
      · rw [hm] at h
        simp only [Option.some.injEq, Prod.mk.injEq] at h
        obtain ⟨rfl, rfl⟩ := h
        exact ((ih hm).cons a).trans (List.Perm.swap me a rest'')

theorem popMin_min {l : List (Node × ℚ)} {e : Node × ℚ} {l' : List (Node × ℚ)}
    (h : popMin l = some (e, l')) : ∀ x ∈ l', e.2 ≤ x.2 := by
  induction l generalizing e l' with
  | nil => simp [popMin] at h
  | cons a rest ih =>
    rw [popMin] at h
    split at h
    · rename_i hall
      simp only [Option.some.injEq, Prod.mk.injEq] at h
      obtain ⟨rfl, rfl⟩ := h
      intro x hx
      have := List.all_eq_true.mp hall x hx
      exact of_decide_eq_true this
    · rename_i hnotall
      rcases hm : popMin rest with _ | ⟨me, rest''⟩
      · rw [hm] at h; simp at h
      · rw [hm] at h
        simp only [Option.some.injEq, Prod.mk.injEq] at h
        obtain ⟨rfl, rfl⟩ := h
        have hy : ∃ y ∈ rest, y.2 < a.2 := by
          by_contra hc
          push_neg at hc
          apply hnotall
          simp only [List.all_eq_true, decide_eq_true_eq]
          exact hc
        rcases hy with ⟨y, hy, hylt⟩
        have he_le_a : me.2 ≤ a.2 := by
          have hperm := popMin_perm hm
          have hmem : y ∈ me :: rest'' := hperm.mem_iff.mp hy
          rcases List.mem_cons.mp hmem with rfl | hy'
          · exact le_of_lt hylt
          · exact le_trans (ih hm y hy') (le_of_lt hylt)
        intro x hx
        rcases List.mem_cons.mp hx with rfl | hx'
        · exact he_le_a
        · exact ih hm x hx'

/-! ## Sorted result lists and the leaf-branch update -/

/-- The result list order of `knn`: non-decreasing squared distances. -/
def sortedQ (l : List (ℕ × ℚ)) : Prop :=
  l.Sorted fun a b => a.2 ≤ b.2

theorem sortedQ_nil : sortedQ [] := List.sorted_nil

theorem sortedQ_cons {x : ℕ × ℚ} {l : List (ℕ × ℚ)} :
    sortedQ (x :: l) ↔ (∀ y ∈ l, x.2 ≤ y.2) ∧ sortedQ l := List.sorted_cons

theorem sortedQ_le_getLast {l : List (ℕ × ℚ)} (h : sortedQ l) {x : ℕ × ℚ}
    (hx : x ∈ l) (hne : l ≠ []) : x.2 ≤ (l.getLast hne).2 := by
  induction l with
  | nil => cases hx
  | cons a rest ih =>
    rcases sortedQ_cons.mp h with ⟨ha, hrest⟩
    cases rest with
    | nil =>
      rcases List.mem_cons.mp hx with rfl | hx'
      · simp [List.getLast]
      · cases hx'
    | cons b rest' =>
      have hg : (a :: b :: rest').getLast hne = (b :: rest').getLast (by simp) := by
        simp [List.getLast]
      rcases List.mem_cons.mp hx with rfl | hx'
      · rw [hg]
        exact ha _ (List.getLast_mem (by simp))
      · rw [hg]
        exact ih hrest hx' (by simp)

theorem sortedQ_getLast {l : List (ℕ × ℚ)} (h : sortedQ l) {x : ℕ × ℚ} (hx : x ∈ l) :
    ∃ m, l.getLast? = some m ∧ x.2 ≤ m.2 := by
  have hne : l ≠ [] := List.ne_nil_of_mem hx
  exact ⟨l.getLast hne, List.getLast?_eq_getLast l hne, sortedQ_le_getLast h hx hne⟩

theorem sortedQ_sublist {l l' : List (ℕ × ℚ)} (hs : l'.Sublist l) (h : sortedQ l) :
    sortedQ l' := List.Pairwise.sublist hs h

theorem sortedQ_dropLast {l : List (ℕ × ℚ)} (h : sortedQ l) : sortedQ l.dropLast :=
  sortedQ_sublist (List.dropLast_sublist l) h

/-- `insertResult` in split form: past the strictly-smaller prefix, insert. -/
theorem insertResult_eq_append (e : ℕ × ℚ) (l : List (ℕ × ℚ)) :
    insertResult e l = l.takeWhile (fun x => x.2 < e.2) ++ e :: l.dropWhile (fun x => x.2 < e.2) := by
  induction l with
  | nil => simp [insertResult]
  | cons x rest ih =>
    by_cases hx : x.2 < e.2
    · rw [insertResult, if_pos hx, ih, List.takeWhile_cons, List.dropWhile_cons]
      simp [hx]
    · rw [insertResult, if_neg hx, List.takeWhile_cons, List.dropWhile_cons]
      simp [hx]

theorem insertResult_perm (e : ℕ × ℚ) (l : List (ℕ × ℚ)) :
    (insertResult e l).Perm (e :: l) := by
  rw [insertResult_eq_append]
  have h := @List.perm_middle (ℕ × ℚ) e (l.takeWhile fun x => x.2 < e.2)
    (l.dropWhile fun x => x.2 < e.2)
  rwa [List.takeWhile_append_dropWhile] at h

theorem insertResult_length (e : ℕ × ℚ) (l : List (ℕ × ℚ)) :
    (insertResult e l).length = l.length + 1 := by
  simpa using (insertResult_perm e l).length_eq

theorem insertResult_mem {e : ℕ × ℚ} {l : List (ℕ × ℚ)} {y : ℕ × ℚ}
    (hy : y ∈ insertResult e l) : y = e ∨ y ∈ l := by
  have := (insertResult_perm e l).mem_iff.mp hy
  simpa using this

theorem insertResult_ne_nil (e : ℕ × ℚ) (l : List (ℕ × ℚ)) : insertResult e l ≠ [] := by
  intro h
  have := insertResult_length e l
  rw [h] at this
  simp at this

theorem sortedQ_insertResult {l : List (ℕ × ℚ)} (e : ℕ × ℚ) (h : sortedQ l) :
    sortedQ (insertResult e l) := by
  induction l with
  | nil => simp [insertResult, sortedQ]
  | cons x rest ih =>
    rcases sortedQ_cons.mp h with ⟨hx, hrest⟩
    by_cases hlt : x.2 < e.2
    · rw [insertResult, if_pos hlt]
      refine sortedQ_cons.mpr ⟨?_, ih hrest⟩
      intro y hy
      rcases insertResult_mem hy with rfl | hy'
      · exact le_of_lt hlt
      · exact hx y hy'
    · rw [insertResult, if_neg hlt]
      push_neg at hlt
      refine sortedQ_cons.mpr ⟨?_, h⟩
      intro y hy
      rcases List.mem_cons.mp hy with rfl | hy'
      · exact hlt
      · exact le_trans hlt (hx y hy')

/-- Proof-side shorthand for the leaf-branch update of the result list:
insert, then drop the worst entry if the list exceeds `k`. -/
def insTrim (k : ℕ) (e : ℕ × ℚ) (qr : List (ℕ × ℚ)) : List (ℕ × ℚ) :=
  if (insertResult e qr).length > k then (insertResult e qr).dropLast
  else insertResult e qr

theorem sortedQ_insTrim {k : ℕ} {e : ℕ × ℚ} {qr : List (ℕ × ℚ)} (h : sortedQ qr) :
    sortedQ (insTrim k e qr) := by
  unfold insTrim
  split
  · exact sortedQ_dropLast (sortedQ_insertResult e h)
  · exact sortedQ_insertResult e h

theorem insTrim_length {k : ℕ} {e : ℕ × ℚ} {qr : List (ℕ × ℚ)} (h : qr.length ≤ k) :
    (insTrim k e qr).length ≤ k := by
  unfold insTrim
  have hlen := insertResult_length e qr
  split
  · rename_i hgt
    rw [List.length_dropLast]
    omega
  · rename_i hle
    omega

theorem insTrim_subset {k : ℕ} {e : ℕ × ℚ} {qr : List (ℕ × ℚ)} :
    ∀ y ∈ insTrim k e qr, y = e ∨ y ∈ qr := by
  intro y hy
  unfold insTrim at hy
  split at hy
  · exact insertResult_mem (List.dropLast_sublist _ |>.mem hy)
  · exact insertResult_mem hy

theorem insTrim_multiset_le {k : ℕ} {e : ℕ × ℚ} {qr : List (ℕ × ℚ)} :
    (↑(insTrim k e qr) : Multiset (ℕ × ℚ)) ≤ ↑(e :: qr) := by
  have hperm : (↑(insertResult e qr) : Multiset (ℕ × ℚ)) = ↑(e :: qr) :=
    Quot.sound (insertResult_perm e qr)
  unfold insTrim
  split
  · calc (↑((insertResult e qr).dropLast) : Multiset (ℕ × ℚ))
        ≤ ↑(insertResult e qr) := (List.dropLast_sublist _).subperm
      _ = ↑(e :: qr) := hperm
  · rw [hperm]


theorem kthDist_some_iff {k : ℕ} {qr : List (ℕ × ℚ)} {m : ℚ} :
    kthDist k qr = some m ↔
      k ≤ qr.length ∧ ∃ hne : qr ≠ [], m = (qr.getLast hne).2 := by
  unfold kthDist
  constructor
  · intro h
    split at h
    · simp at h
    · rename_i hge
      have hk : k ≤ qr.length := by omega
      rcases hq : qr.getLast? with _ | g
      · rw [hq] at h; simp at h
      · rw [hq] at h
        have hne : qr ≠ [] := by
          intro hc
          rw [hc] at hq
          simp at hq
        refine ⟨hk, hne, ?_⟩
        rw [List.getLast?_eq_getLast _ hne] at hq
        have hg : qr.getLast hne = g := by injection hq
        have hm : g.2 = m := by simpa using h
        rw [← hm, hg]
  · rintro ⟨hk, hne, rfl⟩
    rw [if_neg (by omega), List.getLast?_eq_getLast _ hne]
    rfl

theorem kthDist_le_of_mem {k : ℕ} {qr : List (ℕ × ℚ)} {m : ℚ}
    (hs : sortedQ qr) (h : kthDist k qr = some m) {y : ℕ × ℚ} (hy : y ∈ qr) :
    y.2 ≤ m := by
  rcases kthDist_some_iff.mp h with ⟨_, hne, rfl⟩
  exact sortedQ_le_getLast hs hy hne

theorem insTrim_covered {k : ℕ} {e : ℕ × ℚ} {qr : List (ℕ × ℚ)}
    (hk : 1 ≤ k) (hs : sortedQ qr) (hlen : qr.length ≤ k) :
    ∀ y ∈ insertResult e qr,
      y ∈ insTrim k e qr ∨
        ∃ m, kthDist k (insTrim k e qr) = some m ∧ m ≤ y.2 := by
  intro y hy
  unfold insTrim
  split
  · rename_i hgt
    have hlen' : (insertResult e qr).length = k + 1 := by
      have := insertResult_length e qr
      omega
    have hne' : insertResult e qr ≠ [] := insertResult_ne_nil e qr
    have hdec : (insertResult e qr).dropLast ++ [(insertResult e qr).getLast hne'] =
        insertResult e qr := List.dropLast_append_getLast hne'
    have hlendl : (insertResult e qr).dropLast.length = k := by
      rw [List.length_dropLast]
      omega
    have hnedl : (insertResult e qr).dropLast ≠ [] := by
      intro hc
      rw [hc] at hlendl
      simp at hlendl
      omega
    have hkth : kthDist k (insertResult e qr).dropLast =
        some (((insertResult e qr).dropLast.getLast hnedl).2) := by
      unfold kthDist
      rw [if_neg (by omega), List.getLast?_eq_getLast _ hnedl]
      rfl
    by_cases hmem : y ∈ (insertResult e qr).dropLast
    · exact Or.inl hmem
    · refine Or.inr ⟨((insertResult e qr).dropLast.getLast hnedl).2, hkth, ?_⟩
      have hsort' : sortedQ (insertResult e qr) := sortedQ_insertResult e hs
      have hmax := sortedQ_le_getLast hsort'
        ((List.dropLast_sublist (insertResult e qr)).mem (List.getLast_mem hnedl)) hne'
      have hy_last : y = (insertResult e qr).getLast hne' := by
        have hy2 := hdec ▸ hy
        rcases List.mem_append.mp hy2 with h | h
        · exact absurd h hmem
        · simpa using h
      rw [hy_last]
      exact hmax
  · exact Or.inl hy

/-- The `k`-th distance never increases across a leaf-branch update. -/
theorem insTrim_kth_mono {k : ℕ} {e : ℕ × ℚ} {qr : List (ℕ × ℚ)}
    (hs : sortedQ qr) (hlen : qr.length ≤ k) {m : ℚ}
    (h : kthDist k qr = some m) :
    ∃ m', kthDist k (insTrim k e qr) = some m' ∧ m' ≤ m := by
  rcases kthDist_some_iff.mp h with ⟨hk, hne, rfl⟩
  have hlenq : qr.length = k := le_antisymm hlen hk
  have hlen' : (insertResult e qr).length = k + 1 := by
    have := insertResult_length e qr
    omega
  have hit : insTrim k e qr = (insertResult e qr).dropLast := by
    unfold insTrim
    rw [if_pos (by omega)]
  have hlendl : (insertResult e qr).dropLast.length = k := by
    rw [List.length_dropLast]
    omega
  have hk1 : 1 ≤ k := by
    rcases hql : qr with _ | _
    · exact absurd hql hne
    · rw [hql] at hlenq
      simp at hlenq
      omega
  have hnedl : (insertResult e qr).dropLast ≠ [] := by
    intro hc
    rw [hc] at hlendl
    simp at hlendl
    omega
  refine ⟨(((insertResult e qr).dropLast).getLast hnedl).2, ?_, ?_⟩
  · rw [hit]
    unfold kthDist
    rw [if_neg (by omega), List.getLast?_eq_getLast _ hnedl]
    rfl
  · have hlastmem : ((insertResult e qr).dropLast).getLast hnedl ∈ insertResult e qr :=
      (List.dropLast_sublist (insertResult e qr)).mem (List.getLast_mem hnedl)
    have hperm := insertResult_perm e qr
    have hmem' : ((insertResult e qr).dropLast).getLast hnedl ∈ e :: qr :=
      hperm.mem_iff.mp hlastmem
    rcases List.mem_cons.mp hmem' with heq | hmemq
    · -- the new k-th entry is the inserted pair `e` itself
      rcases hB : qr.dropWhile (fun x => x.2 < e.2) with _ | ⟨b, Brest⟩
      · -- impossible: with an empty tail, `e` is the dropped last entry
        exfalso
        have hA : insertResult e qr = qr.takeWhile (fun x => x.2 < e.2) ++ [e] := by
          rw [insertResult_eq_append, hB]
        have hdl : (insertResult e qr).dropLast = qr.takeWhile (fun x => x.2 < e.2) := by
          rw [hA]
          exact List.dropLast_concat
        have hmemA : ((insertResult e qr).dropLast).getLast hnedl ∈
            qr.takeWhile (fun x => x.2 < e.2) := by
          rw [← hdl]
          exact List.getLast_mem hnedl
        have hp := List.mem_takeWhile_imp hmemA
        rw [heq] at hp
        simp at hp
      · -- nonempty tail: its head is an old entry that is not below `e`
        have hbq : b ∈ qr := by
          have hbB : b ∈ qr.dropWhile (fun x => x.2 < e.2) := by
            rw [hB]
            exact List.mem_cons_self b Brest
          exact (List.dropWhile_sublist _).mem hbB
        have hbe : ¬ (b.2 < e.2) := by
          have hh := List.head?_dropWhile_not (fun x : ℕ × ℚ => decide (x.2 < e.2)) qr
          rw [hB] at hh
          simpa using hh
        have hble := sortedQ_le_getLast hs hbq hne
        rw [heq]
        push_neg at hbe
        exact le_trans hbe hble
    · exact sortedQ_le_getLast hs hmemq hne

/-! ## The squared distance and the lower-bound function -/

theorem foldl_add_eq_sum (f : ℕ → ℚ) (l : List ℕ) (init : ℚ) :
    l.foldl (fun acc d => acc + f d) init = init + (l.map f).sum := by
  induction l generalizing init with
  | nil => simp
  | cons a rest ih =>
    simp only [List.foldl_cons, List.map_cons, List.sum_cons]
    rw [ih]
    ring

theorem sqDist_eq_sum (dim : ℕ) (p q : Pt) :
    sqDist dim p q = ∑ d ∈ Finset.range dim, (coord p d - coord q d) ^ 2 := by
  unfold sqDist
  rw [foldl_add_eq_sum (fun d => (coord p d - coord q d) * (coord p d - coord q d))]
  rw [zero_add]
  induction dim with
  | zero => simp
  | succ n ih =>
    rw [List.range_succ, List.map_append, List.sum_append, ih, Finset.sum_range_succ]
    simp only [List.map_cons, List.map_nil, List.sum_cons, List.sum_nil, add_zero]
    rw [sq]

theorem sqDist_nonneg (dim : ℕ) (p q : Pt) : 0 ≤ sqDist dim p q := by
  rw [sqDist_eq_sum]
  exact Finset.sum_nonneg fun d _ => sq_nonneg _

theorem sq_le_sqDist {dim d : ℕ} (hd : d < dim) (p q : Pt) :
    (coord p d - coord q d) ^ 2 ≤ sqDist dim p q := by
  rw [sqDist_eq_sum]
  exact Finset.single_le_sum (fun i _ => sq_nonneg (coord p i - coord q i))
    (Finset.mem_range.mpr hd)

/-- The value the loop of `min_pt_dist_to_node` compares against `min_dist`
in iteration `d`: the gap when the query is outside on dimension `d`, and the
indeterminate `junk d` otherwise. -/
def mpdRead (q mid : Pt) (radius : ℚ) (junk : ℕ → ℚ) (d : ℕ) : ℚ :=
  if coord q d < coord mid d - radius then coord mid d - radius - coord q d
  else if coord q d > coord mid d + radius then coord q d - (coord mid d + radius)
  else junk d

/-- The query coordinate is inside `[mid[d]-radius, mid[d]+radius]`. -/
def mpdInsideAt (q mid : Pt) (radius : ℚ) (d : ℕ) : Prop :=
  ¬(coord q d < coord mid d - radius) ∧ ¬(coord q d > coord mid d + radius)

instance {q mid : Pt} {radius : ℚ} {d : ℕ} : Decidable (mpdInsideAt q mid radius d) := by
  unfold mpdInsideAt
  exact instDecidableAnd

theorem mpdStep_fst (q mid : Pt) (radius : ℚ) (junk : ℕ → ℚ) (s : Bool × Option ℚ)
    (d : ℕ) :
    (mpdStep q mid radius junk s d).1 =
      (s.1 && decide (mpdInsideAt q mid radius d)) := by
  by_cases h₁ : coord q d < coord mid d - radius
  · simp [mpdStep, mpdInsideAt, h₁]
  · by_cases h₂ : coord q d > coord mid d + radius
    · simp [mpdStep, mpdInsideAt, h₁, h₂]
    · simp [mpdStep, mpdInsideAt, h₁, h₂]

theorem mpdStep_snd (q mid : Pt) (radius : ℚ) (junk : ℕ → ℚ) (s : Bool × Option ℚ)
    (d : ℕ) :
    (mpdStep q mid radius junk s d).2 =
      some (match s.2 with
        | none => mpdRead q mid radius junk d
        | some m => min (mpdRead q mid radius junk d) m) := by
  rcases s with ⟨b, mo⟩
  rcases mo with _ | m
  · by_cases h₁ : coord q d < coord mid d - radius
    · simp [mpdStep, mpdRead, h₁]
    · by_cases h₂ : coord q d > coord mid d + radius
      · simp [mpdStep, mpdRead, h₁, h₂]
      · simp [mpdStep, mpdRead, h₁, h₂]
  · have hiff : ∀ x : ℚ, (if x < m then some x else some m) = some (min x m) := by
      intro x
      split
      · rename_i hlt
        rw [min_eq_left (le_of_lt hlt)]
      · rename_i hge
        push_neg at hge
        rw [min_eq_right hge]
    by_cases h₁ : coord q d < coord mid d - radius
    · simp only [mpdStep, mpdRead, h₁, if_true, if_pos h₁]
      exact hiff _
    · by_cases h₂ : coord q d > coord mid d + radius
      · simp only [mpdStep, mpdRead, h₁, h₂, if_false, if_true, if_neg h₁, if_pos h₂]
        exact hiff _
      · simp only [mpdStep, mpdRead, h₁, h₂, if_false, if_neg h₁, if_neg h₂]
        exact hiff _

theorem mpd_fold_fst (q mid : Pt) (radius : ℚ) (junk : ℕ → ℚ) (dim : ℕ) :
    ((List.range dim).foldl (mpdStep q mid radius junk) (true, none)).1 = true ↔
      ∀ d < dim, mpdInsideAt q mid radius d := by
  induction dim with
  | zero => simp
  | succ n ih =>
    rw [List.range_succ, List.foldl_append]
    simp only [List.foldl_cons, List.foldl_nil]
    rw [mpdStep_fst, Bool.and_eq_true, decide_eq_true_eq, ih]
    constructor
    · rintro ⟨h₁, h₂⟩ d hd
      rcases Nat.lt_succ_iff_lt_or_eq.mp hd with h | rfl
      · exact h₁ d h
      · exact h₂
    · intro h
      exact ⟨fun d hd => h d (by omega), h n (by omega)⟩

theorem mpd_fold_snd (q mid : Pt) (radius : ℚ) (junk : ℕ → ℚ) {dim : ℕ}
    (hdim : 1 ≤ dim) :
    ∃ m, ((List.range dim).foldl (mpdStep q mid radius junk) (true, none)).2 = some m ∧
      (∃ d < dim, m = mpdRead q mid radius junk d) ∧
      (∀ d < dim, m ≤ mpdRead q mid radius junk d) := by
  induction dim with
  | zero => omega
  | succ n ih =>
    rw [List.range_succ, List.foldl_append]
    simp only [List.foldl_cons, List.foldl_nil]
    rw [mpdStep_snd]
    rcases Nat.lt_or_ge n 1 with hn | hn
    · have hn0 : n = 0 := by omega
      subst hn0
      simp only [List.range_zero, List.foldl_nil]
      refine ⟨mpdRead q mid radius junk 0, rfl, ⟨0, by omega, rfl⟩, ?_⟩
      intro d hd
      have hd0 : d = 0 := by omega
      subst hd0
      exact le_refl _
    · rcases ih hn with ⟨m, hm, ⟨d₀, hd₀, hmd₀⟩, hmle⟩
      rw [hm]
      refine ⟨min (mpdRead q mid radius junk n) m, rfl, ?_, ?_⟩
      · rcases le_total (mpdRead q mid radius junk n) m with h | h
        · exact ⟨n, by omega, min_eq_left h⟩
        · exact ⟨d₀, by omega, by rw [min_eq_right h, hmd₀]⟩
      · intro d hd
        rcases Nat.lt_succ_iff_lt_or_eq.mp hd with h | rfl
        · exact le_trans (min_le_right _ _) (hmle d h)
        · exact min_le_left _ _

theorem minPtDistToNode_inside {dim : ℕ} {junk : ℕ → ℚ} {q : Pt} {node : Node}
    (h : ∀ d < dim, mpdInsideAt q node.mid node.radius d) :
    minPtDistToNode dim junk q node = 0 := by
  unfold minPtDistToNode
  rw [if_pos ((mpd_fold_fst q node.mid node.radius junk dim).mpr h)]

theorem minPtDistToNode_not_inside {dim : ℕ} {junk : ℕ → ℚ} {q : Pt} {node : Node}
    (h : ¬ ∀ d < dim, mpdInsideAt q node.mid node.radius d) :
    ∃ m, minPtDistToNode dim junk q node = m * m ∧
      (∃ d < dim, m = mpdRead q node.mid node.radius junk d) ∧
      (∀ d < dim, m ≤ mpdRead q node.mid node.radius junk d) := by
  have hdim : 1 ≤ dim := by
    by_contra hc
    push_neg at hc
    exact h fun d hd => absurd hd (by omega)
  rcases mpd_fold_snd q node.mid node.radius junk hdim with ⟨m, hm, hex, hle⟩
  refine ⟨m, ?_, hex, hle⟩
  unfold minPtDistToNode
  have hfst : ¬ ((List.range dim).foldl (mpdStep q node.mid node.radius junk)
      (true, none)).1 = true := fun hc => h ((mpd_fold_fst _ _ _ _ _).mp hc)
  rw [if_neg (by simpa using hfst), hm]

/-- Soundness of the lower bound under nonnegative indeterminate reads: for a
point lying exactly in the node's region, the bound does not exceed the exact
squared distance computed by the leaf branch. -/
theorem minPtDistToNode_le_sqDist {dim : ℕ} {junk : ℕ → ℚ} {q p : Pt} {node : Node}
    (hjunk : ∀ d, 0 ≤ junk d)
    (hp : inRegion dim node.mid node.radius p) :
    minPtDistToNode dim junk q node ≤ sqDist dim p q := by
  by_cases hin : ∀ d < dim, mpdInsideAt q node.mid node.radius d
  · rw [minPtDistToNode_inside hin]
    exact sqDist_nonneg dim p q
  · rcases minPtDistToNode_not_inside hin with ⟨m, hmeq, hex, hle⟩
    rw [hmeq]
    push_neg at hin
    rcases hin with ⟨d₁, hd₁, hout⟩
    have hread_nonneg : ∀ d < dim, 0 ≤ mpdRead q node.mid node.radius junk d := by
      intro d hd
      unfold mpdRead
      split
      · rename_i h₁
        linarith
      · split
        · rename_i h₂
          linarith
        · exact hjunk d
    rcases hex with ⟨d₀, hd₀, hm_eq⟩
    have hm0 : 0 ≤ m := hm_eq ▸ hread_nonneg d₀ hd₀
    have hreg := hp d₁ hd₁
    have hmle := hle d₁ hd₁
    have hkey : m * m ≤ (coord p d₁ - coord q d₁) ^ 2 := by
      unfold mpdRead at hmle
      unfold mpdInsideAt at hout
      rcases not_and_or.mp hout with h | h
      · rw [not_not] at h
        rw [if_pos h] at hmle
        have hpq : m ≤ coord p d₁ - coord q d₁ := by linarith [hreg.1]
        nlinarith [hm0, hpq]
      · rw [not_not] at h
        have hrr : coord node.mid d₁ - node.radius ≤ coord node.mid d₁ + node.radius :=
          le_trans hreg.1 hreg.2
        rw [if_neg (by linarith), if_pos h] at hmle
        have hpq : m ≤ coord q d₁ - coord p d₁ := by linarith [hreg.2]
        nlinarith [hm0, hpq]
    calc m * m ≤ (coord p d₁ - coord q d₁) ^ 2 := hkey
      _ ≤ sqDist dim p q := sq_le_sqDist hd₁ p q

/-! ## Structure of built trees -/

theorem allNodes_none (m : Pt) (r : ℚ) (p : Option ℕ) :
    (Node.mk m r none p).allNodes = [Node.mk m r none p] := by
  simp [Node.allNodes]

theorem allNodes_some (m : Pt) (r : ℚ) (cs : List (Option Node)) (p : Option ℕ) :
    (Node.mk m r (some cs) p).allNodes =
      Node.mk m r (some cs) p :: Node.allNodes.allAux cs := by
  simp [Node.allNodes]

theorem mem_allAux {u : Node} {cs : List (Option Node)} :
    u ∈ Node.allNodes.allAux cs ↔ ∃ c : Node, some c ∈ cs ∧ u ∈ c.allNodes := by
  induction cs with
  | nil => simp [Node.allNodes.allAux]
  | cons o rest ih =>
    rcases o with _ | c
    · rw [Node.allNodes.allAux]
      simp only [ih]
      constructor
      · rintro ⟨c, hc, hu⟩
        exact ⟨c, List.mem_cons_of_mem _ hc, hu⟩
      · rintro ⟨c, hc, hu⟩
        rcases List.mem_cons.mp hc with hcn | hc'
        · cases hcn
        · exact ⟨c, hc', hu⟩
    · rw [Node.allNodes.allAux]
      rw [List.mem_append, ih]
      constructor
      · rintro (hu | ⟨c', hc', hu⟩)
        · exact ⟨c, List.mem_cons_self _ _, hu⟩
        · exact ⟨c', List.mem_cons_of_mem _ hc', hu⟩
      · rintro ⟨c', hc', hu⟩
        rcases List.mem_cons.mp hc' with hceq | hc''
        · injection hceq with hceq
          subst hceq
          exact Or.inl hu
        · exact Or.inr ⟨c', hc'', hu⟩

theorem mem_allNodes_self (u : Node) : u ∈ u.allNodes := by
  rcases u with ⟨m, r, cs, p⟩
  rcases cs with _ | cs
  · rw [allNodes_none]
    exact List.mem_singleton.mpr rfl
  · rw [allNodes_some]
    exact List.mem_cons_self _ _

theorem leafIdxs_leaf (m : Pt) (r : ℚ) (i : ℕ) :
    (Node.mk m r none (some i)).leafIdxs = [i] := by
  simp [Node.leafIdxs]

theorem leafIdxs_stub (m : Pt) (r : ℚ) :
    (Node.mk m r none none).leafIdxs = [] := by
  simp [Node.leafIdxs]

theorem leafIdxs_internal (m : Pt) (r : ℚ) (cs : List (Option Node)) (p : Option ℕ) :
    (Node.mk m r (some cs) p).leafIdxs = Node.leafIdxs.leafAux cs := by
  simp [Node.leafIdxs]

theorem mem_leafAux {i : ℕ} {cs : List (Option Node)} :
    i ∈ Node.leafIdxs.leafAux cs ↔ ∃ c : Node, some c ∈ cs ∧ i ∈ c.leafIdxs := by
  induction cs with
  | nil => simp [Node.leafIdxs.leafAux]
  | cons o rest ih =>
    rcases o with _ | c
    · rw [Node.leafIdxs.leafAux]
      simp only [ih]
      constructor
      · rintro ⟨c, hc, hu⟩
        exact ⟨c, List.mem_cons_of_mem _ hc, hu⟩
      · rintro ⟨c, hc, hu⟩
        rcases List.mem_cons.mp hc with hcn | hc'
        · cases hcn
        · exact ⟨c, hc', hu⟩
    · rw [Node.leafIdxs.leafAux]
      rw [List.mem_append, ih]
      constructor
      · rintro (hu | ⟨c', hc', hu⟩)
        · exact ⟨c, List.mem_cons_self _ _, hu⟩
        · exact ⟨c', List.mem_cons_of_mem _ hc', hu⟩
      · rintro ⟨c', hc', hu⟩
        rcases List.mem_cons.mp hc' with hceq | hc''
        · injection hceq with hceq
          subst hceq
          exact Or.inl hu
        · exact Or.inr ⟨c', hc'', hu⟩

/-- Nodes of a non-null child are nodes of the parent. -/
theorem allNodes_child_subset {u c : Node} {cs : List (Option Node)}
    (hcs : u.children = some cs) (hc : some c ∈ cs) :
    ∀ v ∈ c.allNodes, v ∈ u.allNodes := by
  intro v hv
  rcases u with ⟨m, r, ucs, p⟩
  simp only [Node.children_mk] at hcs
  subst hcs
  rw [allNodes_some]
  exact List.mem_cons_of_mem _ (mem_allAux.mpr ⟨c, hc, hv⟩)

/-- One slot of the children-building loop of `worker`: nothing for an empty
bucket, otherwise the recursive call at half radius. -/
def workerChild (P : ℕ → Pt) (dim : ℕ) (fn : EndBuildFn) (fuel : ℕ) (mid : Pt)
    (radius : ℚ) (pts : List ℕ) (depth : ℕ) (n : ℕ) : Option (Option Node) :=
  if (pts.filter fun i => orthantIndex dim mid (P i) = n).isEmpty then
    some (none : Option Node)
  else (worker P dim fn fuel (childMid dim mid (radius / 2) n) (radius / 2)
          (pts.filter fun i => orthantIndex dim mid (P i) = n) (depth + 1)).map some

/-- Inversion of one successful `worker` call. -/
theorem worker_succ_cases {P : ℕ → Pt} {dim : ℕ} {fn : EndBuildFn} {fuel : ℕ}
    {mid : Pt} {radius : ℚ} {pts : List ℕ} {depth : ℕ} {t : Node}
    (h : worker P dim fn (fuel + 1) mid radius pts depth = some t) :
    (pts.length = 1 ∧ t = Node.mk (copyMid dim mid) radius none (some pts.headI)) ∨
    (pts.length ≠ 1 ∧ fn (Node.mk (copyMid dim mid) radius none none) depth = true ∧
      t = Node.mk (copyMid dim mid) radius none none) ∨
    (pts.length ≠ 1 ∧ fn (Node.mk (copyMid dim mid) radius none none) depth = false ∧
      ∃ children,
        (List.range (2 ^ dim)).mapM (workerChild P dim fn fuel mid radius pts depth) =
          some children ∧
        ((2 ≤ (children.filterMap id).length ∧
           t = Node.mk (copyMid dim mid) radius (some children) none) ∨
         ((children.filterMap id).length < 2 ∧
           ((∃ c, (children.filterMap id).head? = some c ∧ t = c) ∨
            ((children.filterMap id) = [] ∧
              t = Node.mk (copyMid dim mid) radius (some children) none))))) := by
  rw [worker] at h
  split at h
  · rename_i h1
    left
    injection h with h
    exact ⟨h1, h.symm⟩
  · rename_i h1
    split at h
    · rename_i h2
      right; left
      injection h with h
      exact ⟨h1, h2, h.symm⟩
    · rename_i h2
      right; right
      refine ⟨h1, Bool.of_not_eq_true h2, ?_⟩
      rcases hch : (List.range (2 ^ dim)).mapM
          (workerChild P dim fn fuel mid radius pts depth) with _ | children
      · rw [show ((List.range (2 ^ dim)).mapM (fun n =>
            let bucket := pts.filter fun i => orthantIndex dim mid (P i) = n
            if bucket.isEmpty then some (none : Option Node)
            else (worker P dim fn fuel (childMid dim mid (radius / 2) n) (radius / 2)
                    bucket (depth + 1)).map some)) =
            (List.range (2 ^ dim)).mapM (workerChild P dim fn fuel mid radius pts depth)
          from rfl, hch] at h
        cases h
      · rw [show ((List.range (2 ^ dim)).mapM (fun n =>
            let bucket := pts.filter fun i => orthantIndex dim mid (P i) = n
            if bucket.isEmpty then some (none : Option Node)
            else (worker P dim fn fuel (childMid dim mid (radius / 2) n) (radius / 2)
                    bucket (depth + 1)).map some)) =
            (List.range (2 ^ dim)).mapM (workerChild P dim fn fuel mid radius pts depth)
          from rfl, hch] at h
        refine ⟨children, rfl, ?_⟩
        simp only [] at h
        split at h
        · rename_i hlt
          rcases hh : (children.filterMap id).head? with _ | c
          · rw [hh] at h
            right
            refine ⟨hlt, Or.inr ⟨List.head?_eq_none_iff.mp hh, ?_⟩⟩
            injection h with h
            exact h.symm
          · rw [hh] at h
            right
            refine ⟨hlt, Or.inl ⟨c, rfl, ?_⟩⟩
            injection h with h
            exact h.symm
        · rename_i hge
          left
          injection h with h
          exact ⟨by omega, h.symm⟩

theorem workerChild_some {P : ℕ → Pt} {dim : ℕ} {fn : EndBuildFn} {fuel : ℕ}
    {mid : Pt} {radius : ℚ} {pts : List ℕ} {depth n : ℕ} {co : Option Node}
    (h : workerChild P dim fn fuel mid radius pts depth n = some co) :
    (co = none ∧ pts.filter (fun i => orthantIndex dim mid (P i) = n) = []) ∨
    (∃ c, co = some c ∧ pts.filter (fun i => orthantIndex dim mid (P i) = n) ≠ [] ∧
      worker P dim fn fuel (childMid dim mid (radius / 2) n) (radius / 2)
        (pts.filter fun i => orthantIndex dim mid (P i) = n) (depth + 1) = some c) := by
  unfold workerChild at h
  split at h
  · rename_i hemp
    left
    injection h with h
    exact ⟨h.symm, List.isEmpty_iff.mp hemp⟩
  · rename_i hne
    right
    rcases hw : worker P dim fn fuel (childMid dim mid (radius / 2) n) (radius / 2)
        (pts.filter fun i => orthantIndex dim mid (P i) = n) (depth + 1) with _ | c
    · rw [hw] at h
      cases h
    · rw [hw] at h
      injection h with h
      exact ⟨c, h.symm, fun hc => hne (List.isEmpty_iff.mpr hc), rfl⟩

/-- The orthant buckets partition the point list (as multisets). -/
theorem buckets_partition (P : ℕ → Pt) (dim : ℕ) (mid : Pt) (pts : List ℕ) :
    ∑ m ∈ Finset.range (2 ^ dim),
        (↑(pts.filter fun i => orthantIndex dim mid (P i) = m) : Multiset ℕ) = ↑pts := by
  induction pts with
  | nil => simp
  | cons a rest ih =>
    have hsplit : ∀ m, (↑((a :: rest).filter fun i => orthantIndex dim mid (P i) = m) :
        Multiset ℕ) =
        (if orthantIndex dim mid (P a) = m then ({a} : Multiset ℕ) else 0) +
          ↑(rest.filter fun i => orthantIndex dim mid (P i) = m) := by
      intro m
      rw [List.filter_cons]
      by_cases hm : orthantIndex dim mid (P a) = m
      · simp [hm]
      · simp [hm]
    calc ∑ m ∈ Finset.range (2 ^ dim),
          (↑((a :: rest).filter fun i => orthantIndex dim mid (P i) = m) : Multiset ℕ)
        = ∑ m ∈ Finset.range (2 ^ dim),
            ((if orthantIndex dim mid (P a) = m then ({a} : Multiset ℕ) else 0) +
              ↑(rest.filter fun i => orthantIndex dim mid (P i) = m)) := by
          exact Finset.sum_congr rfl fun m _ => hsplit m
      _ = (∑ m ∈ Finset.range (2 ^ dim),
            (if orthantIndex dim mid (P a) = m then ({a} : Multiset ℕ) else 0)) +
          ∑ m ∈ Finset.range (2 ^ dim),
            (↑(rest.filter fun i => orthantIndex dim mid (P i) = m) : Multiset ℕ) := by
          rw [Finset.sum_add_distrib]
      _ = ({a} : Multiset ℕ) + ↑rest := by
          rw [ih, Finset.sum_ite_eq]
          rw [if_pos (Finset.mem_range.mpr (orthantIndex_lt dim mid (P a)))]
      _ = ↑(a :: rest) := by
          simp [Multiset.singleton_add]

/-- Sum of a per-slot quantity over the children list, leaf-index version. -/
theorem leafAux_multiset (cs : List (Option Node)) :
    (↑(Node.leafIdxs.leafAux cs) : Multiset ℕ) =
      (cs.map fun o => match o with
        | none => (0 : Multiset ℕ)
        | some c => ↑c.leafIdxs).sum := by
  induction cs with
  | nil => simp [Node.leafIdxs.leafAux]
  | cons o rest ih =>
    rcases o with _ | c
    · rw [Node.leafIdxs.leafAux]
      simpa using ih
    · rw [Node.leafIdxs.leafAux]
      rw [show (↑(c.leafIdxs ++ Node.leafIdxs.leafAux rest) : Multiset ℕ) =
          ↑c.leafIdxs + ↑(Node.leafIdxs.leafAux rest) from rfl, ih]
      simp

/-- A positional reading of a map-sum over a list. -/
theorem map_sum_eq_range_sum {β : Type} [AddCommMonoid β] (f : Option Node → β)
    (hf : f none = 0) (cs : List (Option Node)) :
    (cs.map f).sum = ∑ m ∈ Finset.range cs.length, f (cs.getD m none) := by
  induction cs with
  | nil => simp
  | cons o rest ih =>
    rw [List.map_cons, List.sum_cons, List.length_cons, Finset.sum_range_succ', ih]
    simp only [List.getD_cons_succ, List.getD_cons_zero]
    rw [add_comm]

/-- A map-sum over the children equals the map-sum over the non-null ones. -/
theorem map_sum_eq_filterMap_sum {β : Type} [AddCommMonoid β] (g : Node → β)
    (cs : List (Option Node)) :
    (cs.map fun o => match o with
      | none => (0 : β)
      | some c => g c).sum = ((cs.filterMap id).map g).sum := by
  induction cs with
  | nil => simp
  | cons o rest ih =>
    rcases o with _ | c
    · simp only [List.map_cons, List.sum_cons, List.filterMap_cons]
      rw [ih]
      simp
    · simp only [List.map_cons, List.sum_cons, List.filterMap_cons]
      rw [ih]
      rfl

/-- The region of a built node is nested in the requested region, with a
radius halved once per compressed level. -/
theorem worker_region {P : ℕ → Pt} {dim : ℕ} {fn : EndBuildFn} :
    ∀ {fuel : ℕ} {mid : Pt} {radius : ℚ} {pts : List ℕ} {depth : ℕ} {t : Node},
      0 ≤ radius →
      worker P dim fn fuel mid radius pts depth = some t →
      (∃ j, t.radius = radius / 2 ^ j) ∧ 0 ≤ t.radius ∧
        regionSub dim t.mid t.radius mid radius := by
  intro fuel
  induction fuel with
  | zero => intro mid radius pts depth t _ h; cases h
  | succ fuel ih =>
    intro mid radius pts depth t hr h
    have hcopy : ∀ (cs : Option (List (Option Node))) (p : Option ℕ),
        (∃ j, (Node.mk (copyMid dim mid) radius cs p).radius = radius / 2 ^ j) ∧
          0 ≤ (Node.mk (copyMid dim mid) radius cs p).radius ∧
          regionSub dim (Node.mk (copyMid dim mid) radius cs p).mid
            (Node.mk (copyMid dim mid) radius cs p).radius mid radius := by
      intro cs p
      refine ⟨⟨0, by simp⟩, hr, ?_⟩
      intro d hd
      simp only [Node.mid_mk, Node.radius_mk, coord_copyMid hd]
      exact ⟨le_refl _, le_refl _⟩
    rcases worker_succ_cases h with ⟨_, rfl⟩ | ⟨_, _, rfl⟩ |
      ⟨_, _, children, hch, hcase⟩
    · exact hcopy none (some pts.headI)
    · exact hcopy none none
    · rcases hcase with ⟨_, rfl⟩ | ⟨_, ⟨c, hhead, rfl⟩ | ⟨_, rfl⟩⟩
      · exact hcopy (some children) none
      · have hc_mem : some t ∈ children := by
          have hmem : t ∈ children.filterMap id :=
            List.mem_of_mem_head? (by simp [hhead])
          rcases List.mem_filterMap.mp hmem with ⟨o, ho, hid⟩
          rcases o with _ | c'
          · cases hid
          · injection hid with hid
            subst hid
            exact ho
        rcases mapM_range_mem hch hc_mem with ⟨m, hm, hwc⟩
        rcases workerChild_some hwc with ⟨hco, _⟩ | ⟨c', hco, _, hw⟩
        · cases hco
        · injection hco with hco
          subst hco
          have hr2 : (0:ℚ) ≤ radius / 2 := by linarith
          rcases ih hr2 hw with ⟨⟨j, hj⟩, hcr, hsub⟩
          refine ⟨⟨j + 1, ?_⟩, hcr, ?_⟩
          · rw [hj, pow_succ]
            ring
          · exact regionSub_trans hsub (regionSub_childMid hr m)
      · exact hcopy (some children) none

/-- A tree built with the default hook stores exactly the points it was given
(as a multiset of indices). -/
theorem worker_leaves {P : ℕ → Pt} {dim : ℕ} :
    ∀ {fuel : ℕ} {mid : Pt} {radius : ℚ} {pts : List ℕ} {depth : ℕ} {t : Node},
      worker P dim defaultEndBuildFn fuel mid radius pts depth = some t →
      (↑t.leafIdxs : Multiset ℕ) = ↑pts := by
  intro fuel
  induction fuel with
  | zero => intro mid radius pts depth t h; cases h
  | succ fuel ih =>
    intro mid radius pts depth t h
    rcases worker_succ_cases h with ⟨hlen, rfl⟩ | ⟨_, hfn, _⟩ |
      ⟨_, _, children, hch, hcase⟩
    · rcases List.length_eq_one.mp hlen with ⟨i, rfl⟩
      rw [leafIdxs_leaf]
      rfl
    · simp [defaultEndBuildFn] at hfn
    · -- every slot contributes its bucket
      have hlen : children.length = 2 ^ dim := mapM_range_length hch
      have hslot : ∀ m < 2 ^ dim,
          (match children.getD m none with
            | none => (0 : Multiset ℕ)
            | some c => ↑c.leafIdxs) =
          (↑(pts.filter fun i => orthantIndex dim mid (P i) = m) : Multiset ℕ) := by
        intro m hm
        have hwc := mapM_range_getD hch none hm
        rcases workerChild_some hwc with ⟨hco, hemp⟩ | ⟨c, hco, _, hw⟩
        · rw [hco, hemp]
          rfl
        · rw [hco]
          exact ih hw
      have hsum : (children.map fun o => match o with
          | none => (0 : Multiset ℕ)
          | some c => ↑c.leafIdxs).sum = ↑pts := by
        rw [map_sum_eq_range_sum _ rfl children, hlen]
        rw [← buckets_partition P dim mid pts]
        exact Finset.sum_congr rfl fun m hm => hslot m (Finset.mem_range.mp hm)
      rcases hcase with ⟨_, rfl⟩ | ⟨hlt2, ⟨c, hhead, rfl⟩ | ⟨_, rfl⟩⟩
      · rw [leafIdxs_internal, leafAux_multiset, hsum]
      · have hne : children.filterMap id ≠ [] := by
          intro hc
          rw [hc] at hhead
          cases hhead
        have hlen1 : (children.filterMap id).length = 1 := by
          have hpos : 0 < (children.filterMap id).length := List.length_pos.mpr hne
          omega
        have hfm : children.filterMap id = [t] := by
          rcases List.length_eq_one.mp hlen1 with ⟨a, ha⟩
          rw [ha] at hhead ⊢
          injection hhead with hhead
          rw [hhead]
        rw [← hsum, map_sum_eq_filterMap_sum, hfm]
        simp
      · rw [leafIdxs_internal, leafAux_multiset, hsum]

theorem inRegion_copyMid {dim : ℕ} {mid : Pt} {r : ℚ} {p : Pt} :
    inRegion dim (copyMid dim mid) r p ↔ inRegion dim mid r p := by
  unfold inRegion
  constructor
  · intro h d hd
    have := h d hd
    rwa [coord_copyMid hd] at this
  · intro h d hd
    rw [coord_copyMid hd]
    exact h d hd

theorem mem_bucket {P : ℕ → Pt} {dim : ℕ} {mid : Pt} {pts : List ℕ} {m i : ℕ}
    (h : i ∈ pts.filter fun j => orthantIndex dim mid (P j) = m) :
    i ∈ pts ∧ orthantIndex dim mid (P i) = m := by
  rcases List.mem_filter.mp h with ⟨h₁, h₂⟩
  exact ⟨h₁, of_decide_eq_true h₂⟩

/-- Containment: in a tree built with the default hook from points inside the
requested region, every node's subtree stores only points inside that node's
own region. -/
theorem worker_contain {P : ℕ → Pt} {dim : ℕ} :
    ∀ {fuel : ℕ} {mid : Pt} {radius : ℚ} {pts : List ℕ} {depth : ℕ} {t : Node},
      worker P dim defaultEndBuildFn fuel mid radius pts depth = some t →
      (∀ i ∈ pts, inRegion dim mid radius (P i)) →
      ∀ u ∈ t.allNodes, ∀ i ∈ u.leafIdxs, inRegion dim u.mid u.radius (P i) := by
  intro fuel
  induction fuel with
  | zero => intro mid radius pts depth t h; cases h
  | succ fuel ih =>
    intro mid radius pts depth t h hv
    rcases worker_succ_cases h with ⟨hlen, rfl⟩ | ⟨_, hfn, _⟩ |
      ⟨_, _, children, hch, hcase⟩
    · rcases List.length_eq_one.mp hlen with ⟨i₀, rfl⟩
      intro u hu i hi
      rw [allNodes_none] at hu
      rcases List.mem_singleton.mp hu with rfl
      rw [leafIdxs_leaf] at hi
      rcases List.mem_singleton.mp hi with rfl
      simp only [Node.mid_mk, Node.radius_mk]
      exact inRegion_copyMid.mpr (hv i (List.mem_singleton.mpr rfl))
    · simp [defaultEndBuildFn] at hfn
    · -- facts shared by the three sub-cases
      have hslot : ∀ m < 2 ^ dim, ∀ c, children.getD m none = some c →
          ∀ u ∈ c.allNodes, ∀ i ∈ u.leafIdxs, inRegion dim u.mid u.radius (P i) := by
        intro m hm c hc u hu i hi
        have hwc := mapM_range_getD hch none hm
        rw [hc] at hwc
        rcases workerChild_some hwc with ⟨hco, _⟩ | ⟨c', hco, _, hw⟩
        · cases hco
        · injection hco with hco
          subst hco
          refine ih hw ?_ u hu i hi
          intro j hj
          rcases mem_bucket hj with ⟨hjp, hjo⟩
          exact inRegion_childMid (hv j hjp) m hjo.symm
      have hmem_slot : ∀ c : Node, some c ∈ children → ∃ m < 2 ^ dim,
          children.getD m none = some c := by
        intro c hc
        rcases List.getElem_of_mem hc with ⟨m, hml, hme⟩
        have hlen2 : children.length = 2 ^ dim := mapM_range_length hch
        refine ⟨m, by omega, ?_⟩
        rw [List.getD_eq_getElem?_getD, List.getElem?_eq_getElem hml, hme]
        rfl
      have hinternal : ∀ i ∈ Node.leafIdxs.leafAux children,
          inRegion dim mid radius (P i) := by
        intro i hi
        rcases mem_leafAux.mp hi with ⟨c, hc, hic⟩
        rcases hmem_slot c hc with ⟨m, hm, hgd⟩
        have hwc := mapM_range_getD hch none hm
        rw [hgd] at hwc
        rcases workerChild_some hwc with ⟨hco, _⟩ | ⟨c', hco, _, hw⟩
        · cases hco
        · injection hco with hco
          subst hco
          have hmsc := worker_leaves hw
          have : i ∈ pts.filter fun j => orthantIndex dim mid (P j) = m := by
            have : i ∈ (↑c.leafIdxs : Multiset ℕ) := by
              simpa using hic
            rw [hmsc] at this
            simpa using this
          exact hv i (mem_bucket this).1
      rcases hcase with ⟨_, rfl⟩ | ⟨_, ⟨c, hhead, rfl⟩ | ⟨_, rfl⟩⟩
      · intro u hu i hi
        rw [allNodes_some] at hu
        rcases List.mem_cons.mp hu with rfl | hu'
        · rw [leafIdxs_internal] at hi
          simp only [Node.mid_mk, Node.radius_mk]
          exact inRegion_copyMid.mpr (hinternal i hi)
        · rcases mem_allAux.mp hu' with ⟨c, hc, huc⟩
          rcases hmem_slot c hc with ⟨m, hm, hgd⟩
          exact hslot m hm c hgd u huc i hi
      · have hmem : t ∈ children.filterMap id := List.mem_of_mem_head? (by simp [hhead])
        rcases List.mem_filterMap.mp hmem with ⟨o, ho, hid⟩
        rcases o with _ | c'
        · cases hid
        · injection hid with hid
          subst hid
          rcases hmem_slot c' ho with ⟨m, hm, hgd⟩
          exact hslot m hm c' hgd
      · intro u hu i hi
        rw [allNodes_some] at hu
        rcases List.mem_cons.mp hu with rfl | hu'
        · rw [leafIdxs_internal] at hi
          simp only [Node.mid_mk, Node.radius_mk]
          exact inRegion_copyMid.mpr (hinternal i hi)
        · rcases mem_allAux.mp hu' with ⟨c, hc, huc⟩
          rcases hmem_slot c hc with ⟨m, hm, hgd⟩
          exact hslot m hm c hgd u huc i hi

/-- Dichotomy of nodes built with the default hook: a leaf with a stored
point, or an internal node with a children array and no point. -/
theorem worker_dichotomy {P : ℕ → Pt} {dim : ℕ} :
    ∀ {fuel : ℕ} {mid : Pt} {radius : ℚ} {pts : List ℕ} {depth : ℕ} {t : Node},
      worker P dim defaultEndBuildFn fuel mid radius pts depth = some t →
      ∀ u ∈ t.allNodes,
        (∃ i, u.pt = some i ∧ u.children = none) ∨
        (∃ cs, u.children = some cs ∧ u.pt = none) := by
  intro fuel
  induction fuel with
  | zero => intro mid radius pts depth t h; cases h
  | succ fuel ih =>
    intro mid radius pts depth t h
    rcases worker_succ_cases h with ⟨hlen, rfl⟩ | ⟨_, hfn, _⟩ |
      ⟨_, _, children, hch, hcase⟩
    · intro u hu
      rw [allNodes_none] at hu
      rcases List.mem_singleton.mp hu with rfl
      exact Or.inl ⟨pts.headI, rfl, rfl⟩
    · simp [defaultEndBuildFn] at hfn
    · have hslot : ∀ (c : Node), some c ∈ children →
          ∀ u ∈ c.allNodes,
            (∃ i, u.pt = some i ∧ u.children = none) ∨
            (∃ cs, u.children = some cs ∧ u.pt = none) := by
        intro c hc u hu
        rcases List.getElem_of_mem hc with ⟨m, hml, hme⟩
        have hlen2 : children.length = 2 ^ dim := mapM_range_length hch
        have hwc := mapM_range_getD hch none (show m < 2 ^ dim by omega)
        rw [List.getD_eq_getElem?_getD, List.getElem?_eq_getElem hml, hme] at hwc
        rcases workerChild_some hwc with ⟨hco, _⟩ | ⟨c', hco, _, hw⟩
        · cases hco
        · injection hco with hco
          subst hco
          exact ih hw u hu
      rcases hcase with ⟨_, rfl⟩ | ⟨_, ⟨c, hhead, rfl⟩ | ⟨_, rfl⟩⟩
      · intro u hu
        rw [allNodes_some] at hu
        rcases List.mem_cons.mp hu with rfl | hu'
        · exact Or.inr ⟨children, rfl, rfl⟩
        · rcases mem_allAux.mp hu' with ⟨c, hc, huc⟩
          exact hslot c hc u huc
      · have hmem : t ∈ children.filterMap id := List.mem_of_mem_head? (by simp [hhead])
        rcases List.mem_filterMap.mp hmem with ⟨o, ho, hid⟩
        rcases o with _ | c'
        · cases hid
        · injection hid with hid
          subst hid
          exact hslot c' ho
      · intro u hu
        rw [allNodes_some] at hu
        rcases List.mem_cons.mp hu with rfl | hu'
        · exact Or.inr ⟨children, rfl, rfl⟩
        · rcases mem_allAux.mp hu' with ⟨c, hc, huc⟩
          exact hslot c hc u huc

/-- Compression invariant: every internal node of a built tree (from a
non-empty point list) has at least two non-null children. -/
theorem worker_compress2 {P : ℕ → Pt} {dim : ℕ} {fn : EndBuildFn} :
    ∀ {fuel : ℕ} {mid : Pt} {radius : ℚ} {pts : List ℕ} {depth : ℕ} {t : Node},
      worker P dim fn fuel mid radius pts depth = some t →
      pts ≠ [] →
      ∀ u ∈ t.allNodes, ∀ cs, u.children = some cs →
        2 ≤ (cs.filterMap id).length := by
  intro fuel
  induction fuel with
  | zero => intro mid radius pts depth t h; cases h
  | succ fuel ih =>
    intro mid radius pts depth t h hne
    rcases worker_succ_cases h with ⟨hlen, rfl⟩ | ⟨_, _, rfl⟩ |
      ⟨_, _, children, hch, hcase⟩
    · intro u hu
      rw [allNodes_none] at hu
      rcases List.mem_singleton.mp hu with rfl
      intro cs hcs
      cases hcs
    · intro u hu
      rw [allNodes_none] at hu
      rcases List.mem_singleton.mp hu with rfl
      intro cs hcs
      cases hcs
    · have hslot : ∀ (c : Node), some c ∈ children →
          ∀ u ∈ c.allNodes, ∀ cs, u.children = some cs →
            2 ≤ (cs.filterMap id).length := by
        intro c hc u hu
        rcases List.getElem_of_mem hc with ⟨m, hml, hme⟩
        have hlen2 : children.length = 2 ^ dim := mapM_range_length hch
        have hwc := mapM_range_getD hch none (show m < 2 ^ dim by omega)
        rw [List.getD_eq_getElem?_getD, List.getElem?_eq_getElem hml, hme] at hwc
        rcases workerChild_some hwc with ⟨hco, _⟩ | ⟨c', hco, hbne, hw⟩
        · cases hco
        · injection hco with hco
          subst hco
          exact ih hw hbne u hu
      -- the point list is non-empty, so some slot is non-null
      have hsome : ∃ c : Node, some c ∈ children := by
        rcases pts with _ | ⟨i, rest⟩
        · exact absurd rfl hne
        · have hm : orthantIndex dim mid (P i) < 2 ^ dim := orthantIndex_lt dim mid (P i)
          have hwc := mapM_range_getD hch none hm
          rcases workerChild_some hwc with ⟨_, hemp⟩ | ⟨c, hco, _, _⟩
          · exfalso
            have : i ∈ (i :: rest).filter fun j =>
                orthantIndex dim mid (P j) = orthantIndex dim mid (P i) := by
              rw [List.filter_cons]
              simp
            rw [hemp] at this
            cases this
          · have hlen2 : children.length = 2 ^ dim := mapM_range_length hch
            refine ⟨c, ?_⟩
            have hgd := hco
            have hmm : children.getD (orthantIndex dim mid (P i)) none = some c := hgd
            rw [List.getD_eq_getElem?_getD,
              List.getElem?_eq_getElem (by omega : orthantIndex dim mid (P i) <
                children.length)] at hmm
            simp only [Option.getD_some] at hmm
            rw [← hmm]
            exact List.getElem_mem _
      have hfm_ne : children.filterMap id ≠ [] := by
        rcases hsome with ⟨c, hc⟩
        have : c ∈ children.filterMap id := List.mem_filterMap.mpr ⟨some c, hc, rfl⟩
        exact List.ne_nil_of_mem this
      rcases hcase with ⟨h2, rfl⟩ | ⟨hlt2, ⟨c, hhead, rfl⟩ | ⟨hfm0, rfl⟩⟩
      · intro u hu
        rw [allNodes_some] at hu
        rcases List.mem_cons.mp hu with rfl | hu'
        · intro cs hcs
          injection hcs with hcs
          subst hcs
          exact h2
        · rcases mem_allAux.mp hu' with ⟨c, hc, huc⟩
          exact hslot c hc u huc
      · have hmem : t ∈ children.filterMap id := List.mem_of_mem_head? (by simp [hhead])
        rcases List.mem_filterMap.mp hmem with ⟨o, ho, hid⟩
        rcases o with _ | c'
        · cases hid
        · injection hid with hid
          subst hid
          exact hslot c' ho
      · exact absurd hfm0 hfm_ne

theorem coord_childMid_copyMid {dim : ℕ} {mid : Pt} {nr : ℚ} {n d : ℕ} (hd : d < dim) :
    coord (childMid dim (copyMid dim mid) nr n) d = coord (childMid dim mid nr n) d := by
  rw [coord_childMid hd, coord_childMid hd, coord_copyMid hd]

/-- Child-slot geometry of built trees: for every node `u` of the tree and
every non-null slot `m`, the child's region is a sub-hypercube of the orthant
region of slot `m` (center `u.mid[d] ± u.radius/2`, radius `u.radius/2`), and
its radius is `u.radius / 2^j` for some `j ≥ 1`. -/
theorem worker_child_slots {P : ℕ → Pt} {dim : ℕ} {fn : EndBuildFn} :
    ∀ {fuel : ℕ} {mid : Pt} {radius : ℚ} {pts : List ℕ} {depth : ℕ} {t : Node},
      0 ≤ radius →
      worker P dim fn fuel mid radius pts depth = some t →
      ∀ u ∈ t.allNodes, ∀ cs, u.children = some cs →
        cs.length = 2 ^ dim ∧ 0 ≤ u.radius ∧
        ∀ m c, cs.getD m none = some c →
          ∃ j, 1 ≤ j ∧ c.radius = u.radius / 2 ^ j ∧
            regionSub dim c.mid c.radius
              (childMid dim u.mid (u.radius / 2) m) (u.radius / 2) := by
  intro fuel
  induction fuel with
  | zero => intro mid radius pts depth t _ h; cases h
  | succ fuel ih =>
    intro mid radius pts depth t hr h
    rcases worker_succ_cases h with ⟨hlen, rfl⟩ | ⟨_, _, rfl⟩ |
      ⟨_, _, children, hch, hcase⟩
    · intro u hu
      rw [allNodes_none] at hu
      rcases List.mem_singleton.mp hu with rfl
      intro cs hcs
      cases hcs
    · intro u hu
      rw [allNodes_none] at hu
      rcases List.mem_singleton.mp hu with rfl
      intro cs hcs
      cases hcs
    · have hr2 : (0:ℚ) ≤ radius / 2 := by linarith
      have hslot : ∀ (c : Node), some c ∈ children →
          ∀ u ∈ c.allNodes, ∀ cs, u.children = some cs →
            cs.length = 2 ^ dim ∧ 0 ≤ u.radius ∧
            ∀ m c', cs.getD m none = some c' →
              ∃ j, 1 ≤ j ∧ c'.radius = u.radius / 2 ^ j ∧
                regionSub dim c'.mid c'.radius
                  (childMid dim u.mid (u.radius / 2) m) (u.radius / 2) := by
        intro c hc u hu
        rcases List.getElem_of_mem hc with ⟨m, hml, hme⟩
        have hlen2 : children.length = 2 ^ dim := mapM_range_length hch
        have hwc := mapM_range_getD hch none (show m < 2 ^ dim by omega)
        rw [List.getD_eq_getElem?_getD, List.getElem?_eq_getElem hml, hme] at hwc
        rcases workerChild_some hwc with ⟨hco, _⟩ | ⟨c', hco, _, hw⟩
        · cases hco
        · injection hco with hco
          subst hco
          exact ih hr2 hw u hu
      -- geometry of the top node's own slots
      have htop : ∀ m c, children.getD m none = some c →
          ∃ j, 1 ≤ j ∧ c.radius = radius / 2 ^ j ∧
            regionSub dim c.mid c.radius
              (childMid dim (copyMid dim mid) (radius / 2) m) (radius / 2) := by
        intro m c hgd
        have hlen2 : children.length = 2 ^ dim := mapM_range_length hch
        have hmlt : m < 2 ^ dim := by
          by_contra hge
          have : children.getD m none = none := by
            rw [List.getD_eq_getElem?_getD, List.getElem?_eq_none (by omega)]
            rfl
          rw [this] at hgd
          cases hgd
        have hwc := mapM_range_getD hch none hmlt
        rw [hgd] at hwc
        rcases workerChild_some hwc with ⟨hco, _⟩ | ⟨c', hco, _, hw⟩
        · cases hco
        · injection hco with hco
          subst hco
          rcases worker_region hr2 hw with ⟨⟨j, hj⟩, hcr, hsub⟩
          refine ⟨j + 1, by omega, ?_, ?_⟩
          · rw [hj, pow_succ]
            ring
          · intro d hd
            rw [coord_childMid_copyMid hd]
            exact hsub d hd
      rcases hcase with ⟨_, rfl⟩ | ⟨_, ⟨c, hhead, rfl⟩ | ⟨_, rfl⟩⟩
      · intro u hu
        rw [allNodes_some] at hu
        rcases List.mem_cons.mp hu with rfl | hu'
        · intro cs hcs
          injection hcs with hcs
          subst hcs
          exact ⟨mapM_range_length hch, hr, htop⟩
        · rcases mem_allAux.mp hu' with ⟨c, hc, huc⟩
          exact hslot c hc u huc
      · have hmem : t ∈ children.filterMap id := List.mem_of_mem_head? (by simp [hhead])
        rcases List.mem_filterMap.mp hmem with ⟨o, ho, hid⟩
        rcases o with _ | c'
        · cases hid
        · injection hid with hid
          subst hid
          exact hslot c' ho
      · intro u hu
        rw [allNodes_some] at hu
        rcases List.mem_cons.mp hu with rfl | hu'
        · intro cs hcs
          injection hcs with hcs
          subst hcs
          exact ⟨mapM_range_length hch, hr, htop⟩
        · rcases mem_allAux.mp hu' with ⟨c, hc, huc⟩
          exact hslot c hc u huc

/-! ## The query loop: termination measure and invariants -/

theorem size_pos (u : Node) : 1 ≤ u.size := by
  rcases u with ⟨m, r, cs, p⟩
  rcases cs with _ | cs
  · rw [Node.size]
  · rw [Node.size]
    omega

theorem sizeAux_eq (cs : List (Option Node)) :
    Node.size.sizeAux cs = ((cs.filterMap id).map Node.size).sum := by
  induction cs with
  | nil => simp [Node.size.sizeAux]
  | cons o rest ih =>
    rcases o with _ | c
    · rw [Node.size.sizeAux, ih]
      simp
    · rw [Node.size.sizeAux, ih]
      simp

theorem size_internal {u : Node} {cs : List (Option Node)} (h : u.children = some cs) :
    u.size = 1 + ((cs.filterMap id).map Node.size).sum := by
  rcases u with ⟨m, r, ucs, p⟩
  simp only [Node.children_mk] at h
  subst h
  rw [Node.size, sizeAux_eq]

/-- Entries produced by the child-push loop are children paired with their
computed bound. -/
theorem mem_pushed {dim : ℕ} {junk : ℕ → ℚ} {q : Pt} {cs : List (Option Node)}
    {kth : Option ℚ} {e : Node × ℚ}
    (he : e ∈ cs.filterMap fun c =>
      match c with
      | none => none
      | some child =>
        if ltKth (minPtDistToNode dim junk q child) kth then
          some (child, minPtDistToNode dim junk q child)
        else none) :
    ∃ c : Node, some c ∈ cs ∧ e = (c, minPtDistToNode dim junk q c) := by
  rcases List.mem_filterMap.mp he with ⟨o, ho, hoe⟩
  rcases o with _ | c
  · cases hoe
  · simp only [] at hoe
    split at hoe
    · injection hoe with hoe
      exact ⟨c, ho, hoe.symm⟩
    · cases hoe

theorem pushed_of_mem {dim : ℕ} {junk : ℕ → ℚ} {q : Pt} {cs : List (Option Node)}
    {kth : Option ℚ} {c : Node} (hc : some c ∈ cs)
    (hlt : ltKth (minPtDistToNode dim junk q c) kth = true) :
    (c, minPtDistToNode dim junk q c) ∈ cs.filterMap fun o =>
      match o with
      | none => none
      | some child =>
        if ltKth (minPtDistToNode dim junk q child) kth then
          some (child, minPtDistToNode dim junk q child)
        else none := by
  refine List.mem_filterMap.mpr ⟨some c, hc, ?_⟩
  simp only []
  rw [if_pos hlt]

/-- A generic bound on a sum over the pushed entries by the sum over all
non-null children. -/
theorem filterMap_push_sum_le {β : Type} [OrderedAddCommMonoid β]
    (cs : List (Option Node)) (g : Node → Option (Node × ℚ))
    (hg : ∀ c e, g c = some e → e.1 = c) (f : Node → β) (hf : ∀ c, 0 ≤ f c) :
    ((cs.filterMap fun o => match o with
       | none => none
       | some c => g c).map fun e => f e.1).sum ≤
      ((cs.filterMap id).map f).sum := by
  induction cs with
  | nil => simp
  | cons o rest ih =>
    rcases o with _ | c
    · simpa using ih
    · simp only [List.filterMap_cons]
      rcases hgc : g c with _ | e
      · simp only [List.map_cons, List.sum_cons]
        calc ((rest.filterMap fun o => match o with
              | none => none
              | some c => g c).map fun e => f e.1).sum
            ≤ ((rest.filterMap id).map f).sum := ih
          _ ≤ f c + ((rest.filterMap id).map f).sum := le_add_of_nonneg_left (hf c)
      · simp only [List.map_cons, List.sum_cons]
        rw [hg c e hgc]
        exact add_le_add_left ih _

/-- Sum of leaf-index multisets of the queue entries. -/
def pqMS (pq : List (Node × ℚ)) : Multiset ℕ :=
  (pq.map fun e => (↑e.1.leafIdxs : Multiset ℕ)).sum

theorem pqMS_perm {pq₁ pq₂ : List (Node × ℚ)} (h : pq₁.Perm pq₂) :
    pqMS pq₁ = pqMS pq₂ :=
  List.Perm.sum_eq (h.map _)

theorem pqMS_append (pq₁ pq₂ : List (Node × ℚ)) :
    pqMS (pq₁ ++ pq₂) = pqMS pq₁ + pqMS pq₂ := by
  unfold pqMS
  rw [List.map_append, List.sum_append]

theorem pqMS_cons (e : Node × ℚ) (pq : List (Node × ℚ)) :
    pqMS (e :: pq) = ↑e.1.leafIdxs + pqMS pq := by
  unfold pqMS
  rw [List.map_cons, List.sum_cons]

theorem mem_pqMS {i : ℕ} {pq : List (Node × ℚ)} :
    i ∈ pqMS pq ↔ ∃ e ∈ pq, i ∈ e.1.leafIdxs := by
  induction pq with
  | nil => simp [pqMS]
  | cons e rest ih =>
    rw [pqMS_cons, Multiset.mem_add]
    constructor
    · rintro (h | h)
      · exact ⟨e, List.mem_cons_self _ _, by simpa using h⟩
      · rcases ih.mp h with ⟨e', he', hi⟩
        exact ⟨e', List.mem_cons_of_mem _ he', hi⟩
    · rintro ⟨e', he', hi⟩
      rcases List.mem_cons.mp he' with rfl | he''
      · exact Or.inl (by simpa using hi)
      · exact Or.inr (ih.mpr ⟨e', he'', hi⟩)

theorem leafIdxs_of_leaf {u : Node} {i : ℕ} (hc : u.children = none)
    (hp : u.pt = some i) : u.leafIdxs = [i] := by
  rcases u with ⟨m, r, cs, p⟩
  simp only [Node.children_mk] at hc
  simp only [Node.pt_mk] at hp
  subst hc
  subst hp
  exact leafIdxs_leaf m r i

/-- Well-formedness of a queue node: every leaf stores a point, and every
node's subtree points lie in that node's region. -/
def NodeWF (P : ℕ → Pt) (dim : ℕ) (u : Node) : Prop :=
  ∀ v ∈ u.allNodes,
    (v.children = none → ∃ i, v.pt = some i) ∧
    (∀ i ∈ v.leafIdxs, inRegion dim v.mid v.radius (P i))

theorem NodeWF_child {P : ℕ → Pt} {dim : ℕ} {u c : Node} {cs : List (Option Node)}
    (h : NodeWF P dim u) (hcs : u.children = some cs) (hc : some c ∈ cs) :
    NodeWF P dim c :=
  fun v hv => h v (allNodes_child_subset hcs hc v hv)

theorem leafIdxs_internal_children {u : Node} {cs : List (Option Node)}
    (h : u.children = some cs) : u.leafIdxs = Node.leafIdxs.leafAux cs := by
  rcases u with ⟨m, r, ucs, p⟩
  simp only [Node.children_mk] at h
  subst h
  exact leafIdxs_internal m r cs p

/-- The query loop terminates once the fuel covers the total size of the
queued subtrees: every iteration strictly decreases that measure. -/
theorem knnLoop_terminates (P : ℕ → Pt) (dim k : ℕ) (q : Pt) (eps : ℚ)
    (junk : ℕ → ℚ) :
    ∀ {fuel : ℕ} {pq : List (Node × ℚ)} {qr : List (ℕ × ℚ)},
      (pq.map fun e => e.1.size).sum ≤ fuel →
      ∃ out, knnLoop P dim k q eps junk fuel pq qr = some out := by
  intro fuel
  induction fuel with
  | zero =>
    intro pq qr hm
    rcases pq with _ | ⟨e, rest⟩
    · exact ⟨.ok qr, rfl⟩
    · exfalso
      have := size_pos e.1
      simp only [List.map_cons, List.sum_cons] at hm
      omega
  | succ fuel ih =>
    intro pq qr hm
    rcases hpop : popMin pq with _ | ⟨⟨u, b⟩, pq'⟩
    · refine ⟨.ok qr, ?_⟩
      rw [knnLoop, hpop]
    · have hperm := popMin_perm hpop
      have hsum : (pq.map fun e => e.1.size).sum =
          u.size + (pq'.map fun e => e.1.size).sum := by
        have := List.Perm.sum_eq (hperm.map fun e => e.1.size)
        simpa using this
      have hu1 := size_pos u
      rcases hc : u.children with _ | cs
      · rcases hp : u.pt with _ | i
        · refine ⟨.nullDeref, ?_⟩
          rw [knnLoop, hpop]
          simp only [hc, hp]
        · rcases @ih pq'
            (if (insertResult (i, sqDist dim (P i) q) qr).length > k
              then (insertResult (i, sqDist dim (P i) q) qr).dropLast
              else insertResult (i, sqDist dim (P i) q) qr)
            (show ((pq'.map fun e => e.1.size).sum ≤ fuel) by omega) with ⟨out, hout⟩
          refine ⟨out, ?_⟩
          rw [knnLoop, hpop]
          simp only [hc, hp]
          exact hout
      · by_cases hbrk : kthLe (kthDist k qr) ((1 + eps) * b) = true
        · refine ⟨.ok qr, ?_⟩
          rw [knnLoop, hpop]
          simp only [hc]
          rw [if_pos hbrk]
        · have hpush : ((cs.filterMap fun c =>
              match c with
              | none => none
              | some child =>
                if ltKth (minPtDistToNode dim junk q child) (kthDist k qr) then
                  some (child, minPtDistToNode dim junk q child)
                else none).map fun e => e.1.size).sum ≤
              ((cs.filterMap id).map Node.size).sum := by
            refine filterMap_push_sum_le cs _ ?_ Node.size fun c => Nat.zero_le _
            intro c e he
            split at he
            · injection he with he
              rw [← he]
            · cases he
          have hus : u.size = 1 + ((cs.filterMap id).map Node.size).sum :=
            size_internal hc
          have hfits : (((pq' ++ (cs.filterMap fun c =>
              match c with
              | none => none
              | some child =>
                if ltKth (minPtDistToNode dim junk q child) (kthDist k qr) then
                  some (child, minPtDistToNode dim junk q child)
                else none)).map fun e => e.1.size).sum ≤ fuel) := by
            rw [List.map_append, List.sum_append]
            omega
          rcases @ih _ qr hfits with ⟨out, hout⟩
          refine ⟨out, ?_⟩
          rw [knnLoop, hpop]
          simp only [hc]
          rw [if_neg (by simpa using hbrk)]
          exact hout

theorem insTrim_map_fst_le (k : ℕ) (e : ℕ × ℚ) (qr : List (ℕ × ℚ)) :
    (↑((insTrim k e qr).map Prod.fst) : Multiset ℕ) ≤ e.1 ::ₘ ↑(qr.map Prod.fst) := by
  have h := @insTrim_multiset_le k e qr
  have h2 := @Multiset.map_le_map (ℕ × ℚ) ℕ Prod.fst _ _ h
  rwa [Multiset.map_coe, Multiset.map_coe, List.map_cons] at h2

/-- Pushed children contribute at most the popped node's own leaf indices. -/
theorem pushed_leafMS_le {dim : ℕ} {junk : ℕ → ℚ} {q : Pt} {u : Node}
    {cs : List (Option Node)} (hc : u.children = some cs) (kth : Option ℚ) :
    pqMS (cs.filterMap fun c =>
      match c with
      | none => none
      | some child =>
        if ltKth (minPtDistToNode dim junk q child) kth then
          some (child, minPtDistToNode dim junk q child)
        else none) ≤ ↑u.leafIdxs := by
  unfold pqMS
  have hle := filterMap_push_sum_le cs
    (fun child =>
      if ltKth (minPtDistToNode dim junk q child) kth then
        some (child, minPtDistToNode dim junk q child)
      else none)
    (by
      intro c e he
      simp only [] at he
      split at he
      · injection he with he
        rw [← he]
      · cases he)
    (fun c => (↑c.leafIdxs : Multiset ℕ)) (fun c => Multiset.zero_le _)
  rw [leafIdxs_internal_children hc, leafAux_multiset, map_sum_eq_filterMap_sum]
  exact hle

theorem knnRun_basic (P : ℕ → Pt) (dim k : ℕ) (q : Pt) (eps : ℚ) (junk : ℕ → ℚ)
    (L₀ : Multiset ℕ) :
    ∀ {fuel : ℕ} {pq : List (Node × ℚ)} {qr : List (ℕ × ℚ)} {res : List (ℕ × ℚ)},
      sortedQ qr → qr.length ≤ k →
      (↑(qr.map Prod.fst) : Multiset ℕ) + pqMS pq ≤ L₀ →
      knnLoop P dim k q eps junk fuel pq qr = some (.ok res) →
      sortedQ res ∧ res.length ≤ k ∧ (↑(res.map Prod.fst) : Multiset ℕ) ≤ L₀ := by
  intro fuel
  induction fuel with
  | zero =>
    intro pq qr res hs hlen hsub h
    rw [knnLoop] at h
    split at h
    · injection h with h
      injection h with h
      subst h
      exact ⟨hs, hlen, le_trans (le_add_of_nonneg_right (Multiset.zero_le _)) hsub⟩
    · cases h
  | succ fuel ih =>
    intro pq qr res hs hlen hsub h
    rcases hpop : popMin pq with _ | ⟨⟨u, b⟩, pq'⟩
    · rw [knnLoop, hpop] at h
      injection h with h
      injection h with h
      subst h
      exact ⟨hs, hlen, le_trans (le_add_of_nonneg_right (Multiset.zero_le _)) hsub⟩
    · rw [knnLoop, hpop] at h
      have hperm := popMin_perm hpop
      have hpqms : pqMS pq = ↑u.leafIdxs + pqMS pq' := by
        rw [pqMS_perm hperm, pqMS_cons]
      rcases hc : u.children with _ | cs
      · rcases hp : u.pt with _ | i
        · simp only [hc, hp] at h
          cases h
        · simp only [hc, hp] at h
          have hlfu : u.leafIdxs = [i] := leafIdxs_of_leaf hc hp
          refine ih (sortedQ_insTrim hs) (insTrim_length hlen) ?_ h
          calc (↑((insTrim k (i, sqDist dim (P i) q) qr).map Prod.fst) : Multiset ℕ) +
                pqMS pq'
              ≤ (i ::ₘ ↑(qr.map Prod.fst)) + pqMS pq' := by
                exact add_le_add_right (insTrim_map_fst_le k _ qr) _
            _ = ↑(qr.map Prod.fst) + (↑u.leafIdxs + pqMS pq') := by
                rw [hlfu]
                simp only [Multiset.coe_singleton]
                rw [← Multiset.singleton_add, add_assoc, add_left_comm]
            _ = ↑(qr.map Prod.fst) + pqMS pq := by rw [hpqms]
            _ ≤ L₀ := hsub
      · simp only [hc] at h
        split at h
        · injection h with h
          injection h with h
          subst h
          exact ⟨hs, hlen, le_trans (le_add_of_nonneg_right (Multiset.zero_le _)) hsub⟩
        · refine ih hs hlen ?_ h
          rw [pqMS_append]
          have hpush := @pushed_leafMS_le dim junk q u cs hc (kthDist k qr)
          calc (↑(qr.map Prod.fst) : Multiset ℕ) + (pqMS pq' + pqMS _)
              ≤ ↑(qr.map Prod.fst) + (pqMS pq' + ↑u.leafIdxs) := by
                exact add_le_add_left (add_le_add_left hpush _) _
            _ = ↑(qr.map Prod.fst) + pqMS pq := by
                rw [hpqms, add_comm (pqMS pq')]
            _ ≤ L₀ := hsub

theorem ltKth_false {v : ℚ} {kth : Option ℚ} (h : ltKth v kth = false) :
    ∃ m, kth = some m ∧ m ≤ v := by
  rcases kth with _ | m
  · cases h
  · refine ⟨m, rfl, ?_⟩
    unfold ltKth at h
    have := of_decide_eq_false h
    linarith [not_lt.mp this]

theorem kthLe_true {kth : Option ℚ} {x : ℚ} (h : kthLe kth x = true) :
    ∃ m, kth = some m ∧ m ≤ x := by
  rcases kth with _ | m
  · cases h
  · exact ⟨m, rfl, of_decide_eq_true h⟩

/-- The full loop invariant run: starting from a queue whose bounds are sound
lower bounds, whose nodes are well formed, and which together with the result
list covers every remaining input point, the loop returns a sorted list of
true distances which, at `eps = 0`, contains every input point that is not
provably at distance at least the final `k`-th distance. -/
theorem knnRun_full (P : ℕ → Pt) (dim k : ℕ) (q : Pt) (eps : ℚ) (junk : ℕ → ℚ)
    (L₀ : Multiset ℕ) (hk : 1 ≤ k) (hjunk : ∀ d, 0 ≤ junk d) :
    ∀ {fuel : ℕ} {pq : List (Node × ℚ)} {qr res : List (ℕ × ℚ)},
      sortedQ qr → qr.length ≤ k →
      (∀ e ∈ qr, e.2 = sqDist dim (P e.1) q) →
      (↑(qr.map Prod.fst) : Multiset ℕ) + pqMS pq ≤ L₀ →
      (∀ e ∈ pq, ∀ i ∈ e.1.leafIdxs, e.2 ≤ sqDist dim (P i) q) →
      (∀ e ∈ pq, NodeWF P dim e.1) →
      (∀ i ∈ L₀, i ∈ qr.map Prod.fst ∨ i ∈ pqMS pq ∨
        ∃ m, kthDist k qr = some m ∧ m ≤ sqDist dim (P i) q) →
      knnLoop P dim k q eps junk fuel pq qr = some (.ok res) →
      sortedQ res ∧ res.length ≤ k ∧
      (∀ e ∈ res, e.2 = sqDist dim (P e.1) q) ∧
      ((↑(res.map Prod.fst) : Multiset ℕ) ≤ L₀) ∧
      (eps = 0 → ∀ i ∈ L₀, i ∈ res.map Prod.fst ∨
        ∃ m, kthDist k res = some m ∧ m ≤ sqDist dim (P i) q) := by
  intro fuel
  induction fuel with
  | zero =>
    intro pq qr res hs hlen hd hsub hsound hwf hcomp h
    rw [knnLoop] at h
    split at h
    · rename_i hemp
      injection h with h
      injection h with h
      subst h
      have hpq : pq = [] := List.isEmpty_iff.mp hemp
      subst hpq
      refine ⟨hs, hlen, hd, le_trans (le_add_of_nonneg_right (Multiset.zero_le _)) hsub, ?_⟩
      intro _ i hi
      rcases hcomp i hi with hq | hms | hr
      · exact Or.inl hq
      · exact absurd hms (by simp [pqMS])
      · exact Or.inr hr
    · cases h
  | succ fuel ih =>
    intro pq qr res hs hlen hd hsub hsound hwf hcomp h
    rcases hpop : popMin pq with _ | ⟨⟨u, b⟩, pq'⟩
    · rw [knnLoop, hpop] at h
      injection h with h
      injection h with h
      subst h
      have hpq : pq = [] := popMin_eq_none_iff.mp hpop
      subst hpq
      refine ⟨hs, hlen, hd, le_trans (le_add_of_nonneg_right (Multiset.zero_le _)) hsub, ?_⟩
      intro _ i hi
      rcases hcomp i hi with hq | hms | hr
      · exact Or.inl hq
      · exact absurd hms (by simp [pqMS])
      · exact Or.inr hr
    · rw [knnLoop, hpop] at h
      have hperm := popMin_perm hpop
      have hub_mem : (u, b) ∈ pq := hperm.mem_iff.mpr (List.mem_cons_self _ _)
      have hpq'_mem : ∀ e ∈ pq', e ∈ pq := fun e he =>
        hperm.mem_iff.mpr (List.mem_cons_of_mem _ he)
      have hpqms : pqMS pq = ↑u.leafIdxs + pqMS pq' := by
        rw [pqMS_perm hperm, pqMS_cons]
      rcases hc : u.children with _ | cs
      · rcases hp : u.pt with _ | i
        · exfalso
          rcases (hwf _ hub_mem u (mem_allNodes_self u)).1 hc with ⟨i, hi⟩
          rw [hp] at hi
          cases hi
        · simp only [hc, hp] at h
          have hlfu : u.leafIdxs = [i] := leafIdxs_of_leaf hc hp
          have hdist : sqDist dim (P i) q = sqDist dim (P i) q := rfl
          -- invariants for the updated result list
          refine ih (sortedQ_insTrim hs) (insTrim_length hlen) ?_ ?_
            (fun e he => hsound e (hpq'_mem e he)) (fun e he => hwf e (hpq'_mem e he))
            ?_ h
          · intro e he
            rcases insTrim_subset e he with rfl | he'
            · rfl
            · exact hd e he'
          · calc (↑((insTrim k (i, sqDist dim (P i) q) qr).map Prod.fst) : Multiset ℕ) +
                  pqMS pq'
                ≤ (i ::ₘ ↑(qr.map Prod.fst)) + pqMS pq' := by
                  exact add_le_add_right (insTrim_map_fst_le k _ qr) _
              _ = ↑(qr.map Prod.fst) + (↑u.leafIdxs + pqMS pq') := by
                  rw [hlfu]
                  simp only [Multiset.coe_singleton]
                  rw [← Multiset.singleton_add, add_assoc, add_left_comm]
              _ = ↑(qr.map Prod.fst) + pqMS pq := by rw [hpqms]
              _ ≤ L₀ := hsub
          · intro i' hi'
            rcases hcomp i' hi' with hq | hms | ⟨m, hkth, hmle⟩
            · rcases List.mem_map.mp hq with ⟨y, hy, hyi⟩
              have hyin : y ∈ insertResult (i, sqDist dim (P i) q) qr :=
                (insertResult_perm _ qr).mem_iff.mpr (List.mem_cons_of_mem _ hy)
              rcases insTrim_covered hk hs hlen y hyin with hmem | ⟨m, hm, hmy⟩
              · exact Or.inl (List.mem_map.mpr ⟨y, hmem, hyi⟩)
              · refine Or.inr (Or.inr ⟨m, hm, ?_⟩)
                rw [← hyi, ← hd y hy]
                exact hmy
            · rcases mem_pqMS.mp hms with ⟨e, he, hie⟩
              rcases List.mem_cons.mp (hperm.mem_iff.mp he) with rfl | he'
              · rw [hlfu] at hie
                rcases List.mem_singleton.mp hie with rfl
                have hein : (i', sqDist dim (P i') q) ∈
                    insertResult (i', sqDist dim (P i') q) qr :=
                  (insertResult_perm _ qr).mem_iff.mpr (List.mem_cons_self _ _)
                rcases insTrim_covered hk hs hlen _ hein with hmem | ⟨m, hm, hmy⟩
                · exact Or.inl (List.mem_map.mpr ⟨_, hmem, rfl⟩)
                · exact Or.inr (Or.inr ⟨m, hm, hmy⟩)
              · exact Or.inr (Or.inl (mem_pqMS.mpr ⟨e, he', hie⟩))
            · rcases insTrim_kth_mono hs hlen hkth with ⟨m', hm', hle'⟩
              · exact Or.inr (Or.inr ⟨m', hm', le_trans hle' hmle⟩)
      · simp only [hc] at h
        split at h
        · rename_i hbrk
          injection h with h
          injection h with h
          subst h
          refine ⟨hs, hlen, hd,
            le_trans (le_add_of_nonneg_right (Multiset.zero_le _)) hsub, ?_⟩
          intro heps i' hi'
          rcases kthLe_true hbrk with ⟨m, hkth, hmb⟩
          have hmb0 : m ≤ b := by
            rw [heps] at hmb
            linarith
          rcases hcomp i' hi' with hq | hms | hr
          · exact Or.inl hq
          · rcases mem_pqMS.mp hms with ⟨e, he, hie⟩
            have hlow : b ≤ e.2 := by
              rcases List.mem_cons.mp (hperm.mem_iff.mp he) with rfl | he'
              · exact le_refl _
              · exact popMin_min hpop e he'
            refine Or.inr ⟨m, hkth, ?_⟩
            calc m ≤ b := hmb0
              _ ≤ e.2 := hlow
              _ ≤ sqDist dim (P i') q := hsound e he i' hie
          · exact Or.inr hr
        · rename_i hbrk
          -- the pushed children inherit soundness and well-formedness
          have hwfu : NodeWF P dim u := hwf _ hub_mem
          have hchild_wf : ∀ c : Node, some c ∈ cs → NodeWF P dim c :=
            fun c hcm => NodeWF_child hwfu hc hcm
          have hchild_sound : ∀ c : Node, some c ∈ cs →
              ∀ i' ∈ c.leafIdxs, minPtDistToNode dim junk q c ≤ sqDist dim (P i') q := by
            intro c hcm i' hi'
            refine minPtDistToNode_le_sqDist hjunk ?_
            exact (hwfu c (allNodes_child_subset hc hcm c (mem_allNodes_self c))).2 i' hi'
          refine ih hs hlen hd ?_ ?_ ?_ ?_ h
          · rw [pqMS_append]
            have hpush := @pushed_leafMS_le dim junk q u cs hc (kthDist k qr)
            calc (↑(qr.map Prod.fst) : Multiset ℕ) + (pqMS pq' + pqMS _)
                ≤ ↑(qr.map Prod.fst) + (pqMS pq' + ↑u.leafIdxs) := by
                  exact add_le_add_left (add_le_add_left hpush _) _
              _ = ↑(qr.map Prod.fst) + pqMS pq := by
                  rw [hpqms, add_comm (pqMS pq')]
              _ ≤ L₀ := hsub
          · intro e he
            rcases List.mem_append.mp he with he' | he'
            · exact hsound e (hpq'_mem e he')
            · rcases mem_pushed he' with ⟨c, hcm, rfl⟩
              exact hchild_sound c hcm
          · intro e he
            rcases List.mem_append.mp he with he' | he'
            · exact hwf e (hpq'_mem e he')
            · rcases mem_pushed he' with ⟨c, hcm, rfl⟩
              exact hchild_wf c hcm
          · intro i' hi'
            rcases hcomp i' hi' with hq | hms | hr
            · exact Or.inl hq
            · rcases mem_pqMS.mp hms with ⟨e, he, hie⟩
              rcases List.mem_cons.mp (hperm.mem_iff.mp he) with rfl | he'
              · rw [leafIdxs_internal_children hc] at hie
                rcases mem_leafAux.mp hie with ⟨c, hcm, hic⟩
                rcases hlt : ltKth (minPtDistToNode dim junk q c) (kthDist k qr) with _ | _
                · rcases ltKth_false hlt with ⟨m, hkth, hmle⟩
                  refine Or.inr (Or.inr ⟨m, hkth, ?_⟩)
                  exact le_trans hmle (hchild_sound c hcm i' hic)
                · refine Or.inr (Or.inl (mem_pqMS.mpr
                    ⟨(c, minPtDistToNode dim junk q c),
                      List.mem_append_right _ (pushed_of_mem hcm hlt), hic⟩))
              · exact Or.inr (Or.inl (mem_pqMS.mpr
                  ⟨e, List.mem_append_left _ he', hie⟩))
            · exact Or.inr (Or.inr hr)

/-- With well-formed queue nodes the leaf branch never dereferences an
absent point. -/
theorem knnLoop_no_crash (P : ℕ → Pt) (dim k : ℕ) (q : Pt) (eps : ℚ)
    (junk : ℕ → ℚ) :
    ∀ {fuel : ℕ} {pq : List (Node × ℚ)} {qr : List (ℕ × ℚ)},
      (∀ e ∈ pq, ∀ v ∈ (e.1 : Node).allNodes, v.children = none → ∃ i, v.pt = some i) →
      knnLoop P dim k q eps junk fuel pq qr ≠ some .nullDeref := by
  intro fuel
  induction fuel with
  | zero =>
    intro pq qr _ h
    rw [knnLoop] at h
    split at h
    · injection h with h
      cases h
    · cases h
  | succ fuel ih =>
    intro pq qr hwf h
    rcases hpop : popMin pq with _ | ⟨⟨u, b⟩, pq'⟩
    · rw [knnLoop, hpop] at h
      injection h with h
      cases h
    · rw [knnLoop, hpop] at h
      have hperm := popMin_perm hpop
      have hub_mem : (u, b) ∈ pq := hperm.mem_iff.mpr (List.mem_cons_self _ _)
      have hwf' : ∀ e ∈ pq', ∀ v ∈ (e.1 : Node).allNodes,
          v.children = none → ∃ i, v.pt = some i := fun e he =>
        hwf e (hperm.mem_iff.mpr (List.mem_cons_of_mem _ he))
      rcases hc : u.children with _ | cs
      · rcases hp : u.pt with _ | i
        · rcases hwf _ hub_mem u (mem_allNodes_self u) hc with ⟨i, hi⟩
          rw [hp] at hi
          cases hi
        · simp only [hc, hp] at h
          exact ih hwf' h
      · simp only [hc] at h
        split at h
        · injection h with h
          cases h
        · refine ih ?_ h
          intro e he
          rcases List.mem_append.mp he with he' | he'
          · exact hwf' e he'
          · rcases mem_pushed he' with ⟨c, hcm, rfl⟩
            exact fun v hv => hwf _ hub_mem v (allNodes_child_subset hc hcm v hv)

/-! ## The brute-force reference scan -/

theorem insertScan_perm (e : ℕ × ℚ) (l : List (ℕ × ℚ)) :
    (insertScan e l).Perm (e :: l) := by
  induction l with
  | nil => exact List.Perm.refl _
  | cons x rest ih =>
    rw [insertScan]
    split
    · exact (ih.cons x).trans (List.Perm.swap e x rest)
    · exact List.Perm.refl _

theorem sortedQ_insertScan {l : List (ℕ × ℚ)} (e : ℕ × ℚ) (h : sortedQ l) :
    sortedQ (insertScan e l) := by
  induction l with
  | nil => simp [insertScan, sortedQ]
  | cons x rest ih =>
    rcases sortedQ_cons.mp h with ⟨hx, hrest⟩
    rw [insertScan]
    split
    · rename_i hle
      refine sortedQ_cons.mpr ⟨?_, ih hrest⟩
      intro y hy
      rcases List.mem_cons.mp ((insertScan_perm e rest).mem_iff.mp hy) with rfl | hyA
      · exact hle
      · exact hx y hyA
    · rename_i hgt
      push_neg at hgt
      refine sortedQ_cons.mpr ⟨?_, h⟩
      intro y hy
      rcases List.mem_cons.mp hy with rfl | hy'
      · exact le_of_lt hgt
      · exact le_trans (le_of_lt hgt) (hx y hy')

theorem foldl_insertScan_perm (l acc : List (ℕ × ℚ)) :
    (l.foldl (fun a e => insertScan e a) acc).Perm (l ++ acc) := by
  induction l generalizing acc with
  | nil => simp
  | cons e rest ih =>
    simp only [List.foldl_cons, List.cons_append]
    exact (ih (insertScan e acc)).trans
      ((List.Perm.append_left rest (insertScan_perm e acc)).trans List.perm_middle)

theorem foldl_insertScan_sorted (l acc : List (ℕ × ℚ)) (h : sortedQ acc) :
    sortedQ (l.foldl (fun a e => insertScan e a) acc) := by
  induction l generalizing acc with
  | nil => exact h
  | cons e rest ih =>
    simp only [List.foldl_cons]
    exact ih _ (sortedQ_insertScan e h)

theorem bruteFull_perm (P : ℕ → Pt) (dim n : ℕ) (q : Pt) :
    (bruteFull P dim n q).Perm ((List.range n).map fun i => (i, sqDist dim (P i) q)) := by
  unfold bruteFull
  have := foldl_insertScan_perm ((List.range n).map fun i => (i, sqDist dim (P i) q)) []
  simpa using this

theorem bruteFull_sorted (P : ℕ → Pt) (dim n : ℕ) (q : Pt) :
    sortedQ (bruteFull P dim n q) :=
  foldl_insertScan_sorted _ [] sortedQ_nil

theorem bruteFull_length (P : ℕ → Pt) (dim n : ℕ) (q : Pt) :
    (bruteFull P dim n q).length = n := by
  rw [(bruteFull_perm P dim n q).length_eq]
  simp

theorem bruteFull_mem {P : ℕ → Pt} {dim n : ℕ} {q : Pt} {y : ℕ × ℚ}
    (hy : y ∈ bruteFull P dim n q) : y.1 < n ∧ y.2 = sqDist dim (P y.1) q := by
  have := (bruteFull_perm P dim n q).mem_iff.mp hy
  rcases List.mem_map.mp this with ⟨i, hi, rfl⟩
  exact ⟨List.mem_range.mp hi, rfl⟩

theorem bruteFull_mem_of {P : ℕ → Pt} {dim n : ℕ} {q : Pt} {i : ℕ} (hi : i < n) :
    (i, sqDist dim (P i) q) ∈ bruteFull P dim n q := by
  refine (bruteFull_perm P dim n q).mem_iff.mpr ?_
  exact List.mem_map.mpr ⟨i, List.mem_range.mpr hi, rfl⟩

theorem bruteFull_fst_nodup (P : ℕ → Pt) (dim n : ℕ) (q : Pt) :
    ((bruteFull P dim n q).map Prod.fst).Nodup := by
  have hperm := (bruteFull_perm P dim n q).map Prod.fst
  refine hperm.nodup_iff.mpr ?_
  rw [List.map_map]
  have : (Prod.fst ∘ fun i => (i, sqDist dim (P i) q)) = id := rfl
  rw [this, List.map_id]
  exact List.nodup_range n

theorem sameIndexSet_of_iff {l₁ l₂ : List (ℕ × ℚ)}
    (h : ∀ i, i ∈ l₁.map Prod.fst ↔ i ∈ l₂.map Prod.fst) :
    sameIndexSet l₁ l₂ = true := by
  unfold sameIndexSet
  rw [Bool.and_eq_true, List.all_eq_true, List.all_eq_true]
  constructor
  · intro i hi
    exact List.elem_iff.mpr ((h i).mp hi)
  · intro i hi
    exact List.elem_iff.mpr ((h i).mpr hi)

/-- Endgame of the exact-query argument: a sorted result list of true
distances over distinct input indices that covers every input point (every
point is either reported or at distance at least the `k`-th reported one)
agrees, as an index set, with the first `k` entries of the brute-force scan,
provided no distance tie straddles the `k`-th boundary of that scan. -/
theorem knn_result_matches_brute {P : ℕ → Pt} {dim n k : ℕ} {q : Pt}
    {res : List (ℕ × ℚ)}
    (hk1 : 1 ≤ k) (hkn : k ≤ n)
    (hs : sortedQ res) (hlen : res.length ≤ k)
    (hd : ∀ e ∈ res, e.2 = sqDist dim (P e.1) q)
    (hms : (↑(res.map Prod.fst) : Multiset ℕ) ≤ ↑(List.range n))
    (hcomp : ∀ i < n, i ∈ res.map Prod.fst ∨
      ∃ m, kthDist k res = some m ∧ m ≤ sqDist dim (P i) q)
    (hTie : ∀ y ∈ (bruteFull P dim n q).take k,
      ∀ z ∈ (bruteFull P dim n q).drop k, y.2 < z.2) :
    sameIndexSet res (bruteForce P dim n k q) = true := by
  set B := bruteFull P dim n q with hBdef
  have hBlen : B.length = n := bruteFull_length P dim n q
  have hBsorted : sortedQ B := bruteFull_sorted P dim n q
  have htklen : (B.take k).length = k := by
    rw [List.length_take, hBlen]
    omega
  have hne_take : B.take k ≠ [] := by
    intro hc
    rw [hc] at htklen
    simp at htklen
    omega
  have hres_lt : ∀ e ∈ res, e.1 < n := by
    intro e he
    have h1 : e.1 ∈ (↑(res.map Prod.fst) : Multiset ℕ) := by
      exact_mod_cast List.mem_map.mpr ⟨e, he, rfl⟩
    have h2 := Multiset.mem_of_le hms h1
    rw [Multiset.mem_coe, List.mem_range] at h2
    exact h2
  have hnodup_res : (res.map Prod.fst).Nodup :=
    Multiset.coe_nodup.mp
      (Multiset.nodup_of_le hms (Multiset.coe_nodup.mpr (List.nodup_range n)))
  -- the result list reaches its full length k
  have hlen_eq : res.length = k := by
    by_contra hne
    have hlt : res.length < k := lt_of_le_of_ne hlen hne
    have hkth_none : kthDist k res = none := by
      unfold kthDist
      rw [if_pos hlt]
    have hall : ∀ i < n, i ∈ res.map Prod.fst := by
      intro i hi
      rcases hcomp i hi with h | ⟨m, hm, _⟩
      · exact h
      · rw [hkth_none] at hm
        cases hm
    have hge : (↑(List.range n) : Multiset ℕ) ≤ ↑(res.map Prod.fst) := by
      refine (Multiset.le_iff_subset ?_).mpr ?_
      · exact Multiset.coe_nodup.mpr (List.nodup_range n)
      · intro i hi
        rw [Multiset.mem_coe, List.mem_range] at hi
        rw [Multiset.mem_coe]
        exact hall i hi
    have hcard := Multiset.card_le_card hge
    simp only [Multiset.coe_card, List.length_map, List.length_range] at hcard
    omega
  have hne_res : res ≠ [] := by
    intro hc
    rw [hc] at hlen_eq
    simp at hlen_eq
    omega
  have hkth : kthDist k res = some (res.getLast hne_res).2 :=
    kthDist_some_iff.mpr ⟨by omega, hne_res, rfl⟩
  have hcomp' : ∀ i < n, i ∈ res.map Prod.fst ∨
      (res.getLast hne_res).2 ≤ sqDist dim (P i) q := by
    intro i hi
    rcases hcomp i hi with h | ⟨m, hm, hle⟩
    · exact Or.inl h
    · rw [hkth] at hm
      injection hm with hm
      rw [← hm] at hle
      exact Or.inr hle
  have hsorted_take : sortedQ (B.take k) :=
    List.Pairwise.sublist (List.take_sublist k B) hBsorted
  have htake_le : ∀ y ∈ B.take k, y.2 ≤ ((B.take k).getLast hne_take).2 := by
    intro y hy
    exact sortedQ_le_getLast hsorted_take hy hne_take
  have hdk_mem : (B.take k).getLast hne_take ∈ B.take k :=
    List.getLast_mem hne_take
  have hdrop_gt : ∀ z ∈ B.drop k, ((B.take k).getLast hne_take).2 < z.2 :=
    fun z hz => hTie _ hdk_mem z hz
  have hnodup_take : ((B.take k).map Prod.fst).Nodup :=
    List.Nodup.sublist ((List.take_sublist k B).map Prod.fst)
      (bruteFull_fst_nodup P dim n q)
  have hcard_take : ((B.take k).map Prod.fst).toFinset.card = k := by
    rw [List.toFinset_card_of_nodup hnodup_take, List.length_map, htklen]
  have hcard_res : (res.map Prod.fst).toFinset.card = k := by
    rw [List.toFinset_card_of_nodup hnodup_res, List.length_map, hlen_eq]
  -- the worst reported distance stays below the k-th boundary of the scan
  have hrk_dk : (res.getLast hne_res).2 ≤ ((B.take k).getLast hne_take).2 := by
    by_contra hgt
    push_neg at hgt
    have hsub : ((B.take k).map Prod.fst).toFinset ⊆ (res.map Prod.fst).toFinset := by
      intro i hi
      rw [List.mem_toFinset] at hi
      rw [List.mem_toFinset]
      rcases List.mem_map.mp hi with ⟨y, hy, rfl⟩
      have hyB : y ∈ B := List.take_subset k B hy
      rcases bruteFull_mem hyB with ⟨hylt, hyeq⟩
      rcases hcomp' y.1 hylt with hmem | hge
      · exact hmem
      · exfalso
        have h1 : (res.getLast hne_res).2 ≤ y.2 := by
          rw [hyeq]
          exact hge
        have h2 := htake_le y hy
        linarith
    have heq := Finset.eq_of_subset_of_card_le hsub (by omega)
    have hl_mem : res.getLast hne_res ∈ res := List.getLast_mem hne_res
    have hl_fst : (res.getLast hne_res).1 ∈ (res.map Prod.fst).toFinset := by
      rw [List.mem_toFinset]
      exact List.mem_map.mpr ⟨_, hl_mem, rfl⟩
    rw [← heq, List.mem_toFinset] at hl_fst
    rcases List.mem_map.mp hl_fst with ⟨y, hy, hy1⟩
    have hyB : y ∈ B := List.take_subset k B hy
    rcases bruteFull_mem hyB with ⟨_, hyeq⟩
    have hrk : y.2 = (res.getLast hne_res).2 := by
      rw [hyeq, hy1, ← hd _ hl_mem]
    have := htake_le y hy
    rw [hrk] at this
    linarith
  -- every reported index appears among the first k of the scan
  have hsub2 : (res.map Prod.fst).toFinset ⊆ ((B.take k).map Prod.fst).toFinset := by
    intro i hi
    rw [List.mem_toFinset] at hi
    rw [List.mem_toFinset]
    rcases List.mem_map.mp hi with ⟨e, he, rfl⟩
    have he2 : e.2 = sqDist dim (P e.1) q := hd e he
    have helt : e.1 < n := hres_lt e he
    have hele : e.2 ≤ (res.getLast hne_res).2 := sortedQ_le_getLast hs he hne_res
    have heB : (e.1, sqDist dim (P e.1) q) ∈ B := bruteFull_mem_of helt
    rw [← List.take_append_drop k B, List.mem_append] at heB
    rcases heB with h | h
    · exact List.mem_map.mpr ⟨_, h, rfl⟩
    · exfalso
      have := hdrop_gt _ h
      simp only at this
      rw [← he2] at this
      linarith
  have heq2 := Finset.eq_of_subset_of_card_le hsub2 (by omega)
  have hiff : ∀ i, i ∈ res.map Prod.fst ↔ i ∈ (B.take k).map Prod.fst := by
    intro i
    constructor
    · intro h
      exact List.mem_toFinset.mp (heq2 ▸ List.mem_toFinset.mpr h)
    · intro h
      exact List.mem_toFinset.mp (heq2.symm ▸ List.mem_toFinset.mpr h)
  exact sameIndexSet_of_iff hiff

/-! ## Claim theorems -/

/-- **C1** (corrected).  Exact kNN at `eps = 0`: on a tree built by the
constructor with the default never-stopping predicate from points lying in
the constructor's initial region, `knn(k, q, 0)` returns the same `k` points,
as an index set, as the brute-force scan sorted by squared distance — provided
the indeterminate values read by `min_pt_dist_to_node` on inside dimensions
are nonnegative, and no distance tie straddles the `k`-th boundary of the
scan (the original claim fails on such ties, and the uninitialized reads
can destroy it altogether). -/
theorem C1_knn_exact_eps_zero
    (P : ℕ → Pt) (dim n k : ℕ) (q : Pt) (range : List ℚ) (junk : ℕ → ℚ)
    (root : Node) (fuel fuel₂ : ℕ) (res : List (ℕ × ℚ))
    (hk1 : 1 ≤ k) (hkn : k ≤ n)
    (hjunk : ∀ d, 0 ≤ junk d)
    (hin : ∀ i < n, inRegion dim (initMid dim range) (initRadius dim range) (P i))
    (hbuild : buildRoot dim P n range defaultEndBuildFn fuel = some root)
    (hTie : ∀ y ∈ (bruteFull P dim n q).take k,
      ∀ z ∈ (bruteFull P dim n q).drop k, y.2 < z.2)
    (hrun : knn P dim root k q 0 junk fuel₂ = some (.ok res)) :
    sameIndexSet res (bruteForce P dim n k q) = true := by
  unfold buildRoot at hbuild
  unfold knn at hrun
  have hleaf : (↑root.leafIdxs : Multiset ℕ) = ↑(List.range n) :=
    worker_leaves hbuild
  have hpq : pqMS [(root, (0 : ℚ))] = ↑(List.range n) := by
    rw [pqMS_cons]
    simp only [pqMS, List.map_nil, List.sum_nil, add_zero]
    exact hleaf
  have hwf : NodeWF P dim root := by
    intro v hv
    constructor
    · intro hvc
      rcases worker_dichotomy hbuild v hv with ⟨i, hp, _⟩ | ⟨cs, hc, _⟩
      · exact ⟨i, hp⟩
      · rw [hvc] at hc
        cases hc
    · exact worker_contain hbuild (fun i hi => hin i (List.mem_range.mp hi)) v hv
  have hrun' := knnRun_full P dim k q 0 junk (↑(List.range n)) hk1 hjunk
    sortedQ_nil (by simp) (by simp)
    (by
      rw [List.map_nil, hpq]
      simp)
    (by
      intro e he i hi
      rcases List.mem_singleton.mp he with rfl
      simpa using sqDist_nonneg dim (P i) q)
    (by
      intro e he
      rcases List.mem_singleton.mp he with rfl
      exact hwf)
    (by
      intro i hi
      refine Or.inr (Or.inl ?_)
      rw [hpq]
      exact hi)
    hrun
  rcases hrun' with ⟨hs, hlen, hd, hms, hcompl⟩
  have hcomp : ∀ i < n, i ∈ res.map Prod.fst ∨
      ∃ m, kthDist k res = some m ∧ m ≤ sqDist dim (P i) q := by
    intro i hi
    exact hcompl rfl i (by rw [Multiset.mem_coe, List.mem_range]; exact hi)
  exact knn_result_matches_brute hk1 hkn hs hlen hd hms hcomp hTie

/-! ## Helpers for the remaining claims -/

/-- The constructor's radius is never negative: it starts at `0` and is only
ever replaced by strictly larger values. -/
theorem initRadius_nonneg (dim : ℕ) (range : List ℚ) : 0 ≤ initRadius dim range := by
  unfold initRadius
  have hstep : ∀ (l : List ℕ) (a : ℚ), 0 ≤ a →
      0 ≤ l.foldl (fun radius d =>
        let side := (coord range (d * dim + 1) - coord range (d * dim)) / 2
        if side > radius then side else radius) a := by
    intro l
    induction l with
    | nil => intro a ha; exact ha
    | cons x rest ih =>
      intro a ha
      rw [List.foldl_cons]
      apply ih
      dsimp only
      split
      · rename_i hgt
        linarith
      · exact ha
  exact hstep _ 0 (le_refl 0)

/-- A point lying exactly in a node's region passes the `in_node` test (the
test allows slack `locate_eps` on each side). -/
theorem in_node_of_inRegion {dim : ℕ} {u : Node} {p : Pt}
    (h : inRegion dim u.mid u.radius p) : u.in_node p dim = true := by
  unfold Node.in_node
  rw [List.all_eq_true]
  intro d hd
  have hd' := h d (List.mem_range.mp hd)
  have heps : (0:ℚ) < locateEps := by norm_num [locateEps]
  rw [Bool.and_eq_true, Bool.not_eq_true', Bool.not_eq_true',
    decide_eq_false_iff_not, decide_eq_false_iff_not]
  constructor
  · intro hc
    linarith [hd'.1]
  · intro hc
    linarith [hd'.2]

/-- The per-dimension gap between a query coordinate and a node's region,
following the spec's description (`0` on an inside dimension). -/
def gapAt (q : Pt) (node : Node) (d : ℕ) : ℚ :=
  if coord q d < coord node.mid d - node.radius then
    coord node.mid d - node.radius - coord q d
  else if coord q d > coord node.mid d + node.radius then
    coord q d - (coord node.mid d + node.radius)
  else 0

/-- Modelled from the spec: the point-to-region squared distance the spec
describes — the single largest per-dimension gap, squared (`0` when the
point is inside on every dimension, since all gaps are then `0`). -/
def specMinPtDist (dim : ℕ) (q : Pt) (node : Node) : ℚ :=
  let g := (List.range dim).foldl
    (fun acc d => if gapAt q node d > acc then gapAt q node d else acc) 0
  g * g

/-- Modelled from the spec: the root radius the spec describes — the largest
per-dimension half-extent of a `coordinate_range` laid out as consecutive
`(min, max)` pairs. -/
def specInitRadius (dim : ℕ) (range : List ℚ) : ℚ :=
  (List.range dim).foldl
    (fun radius d => max radius ((coord range (2 * d + 1) - coord range (2 * d)) / 2)) 0

/-- **C2** (confirmed).  Compression invariant: in every tree built by the
constructor with the default always-false stop predicate from at least one
point, every node whose children array is non-null has at least two present
(non-null) children. -/
theorem C2_compression_invariant (P : ℕ → Pt) (dim n : ℕ) (range : List ℚ)
    (fuel : ℕ) (root : Node) (hn : 1 ≤ n)
    (hbuild : buildRoot dim P n range defaultEndBuildFn fuel = some root) :
    ∀ u ∈ root.allNodes, ∀ cs, u.children = some cs →
      2 ≤ (cs.filterMap id).length := by
  unfold buildRoot at hbuild
  refine worker_compress2 hbuild ?_
  intro hc
  have := List.length_range n
  rw [hc] at this
  simp at this
  omega

/-- **C3** (corrected).  `min_pt_dist_to_node` returns `0` when the query is
inside the region on every dimension; when the query is outside on every
dimension it returns the square of the single *smallest* per-dimension gap
(the spec claims the largest).  When some dimensions are inside and some
outside, the result additionally depends on the values the code reads from
its uninitialized local, so no junk-free statement is possible there. -/
theorem C3_min_pt_dist_characterization (dim : ℕ) (junk : ℕ → ℚ) (q : Pt)
    (node : Node) :
    ((∀ d < dim, mpdInsideAt q node.mid node.radius d) →
      minPtDistToNode dim junk q node = 0) ∧
    (1 ≤ dim → (∀ d < dim, ¬ mpdInsideAt q node.mid node.radius d) →
      ∃ m, minPtDistToNode dim junk q node = m * m ∧
        (∃ d < dim, m = gapAt q node d) ∧
        ∀ d < dim, m ≤ gapAt q node d) := by
  constructor
  · exact minPtDistToNode_inside
  · intro hdim hout
    have hne : ¬ ∀ d < dim, mpdInsideAt q node.mid node.radius d := by
      intro hc
      exact hout 0 (by omega) (hc 0 (by omega))
    rcases minPtDistToNode_not_inside hne with ⟨m, hm, ⟨d₀, hd₀, hmd⟩, hle⟩
    have hread : ∀ d < dim, mpdRead q node.mid node.radius junk d = gapAt q node d := by
      intro d hd
      have h := hout d hd
      unfold mpdInsideAt at h
      unfold mpdRead gapAt
      rcases not_and_or.mp h with h' | h'
      · rw [not_not] at h'
        rw [if_pos h', if_pos h']
      · rw [not_not] at h'
        by_cases h₁ : coord q d < coord node.mid d - node.radius
        · rw [if_pos h₁, if_pos h₁]
        · rw [if_neg h₁, if_pos h', if_neg h₁, if_pos h']
    refine ⟨m, hm, ⟨d₀, hd₀, by rw [hmd, hread d₀ hd₀]⟩, ?_⟩
    intro d hd
    rw [← hread d hd]
    exact hle d hd

/-- **C5** (corrected).  For `dim ≤ 2` the constructor's index expressions
`range[d*dim]`, `range[d*dim+1]` coincide with the per-dimension `(min, max)`
pair layout, so the root center is each dimension's midpoint and the root
radius is the largest per-dimension half-extent; and every built root's
region is *contained in* the initial region.  (For `dim ≥ 3` the indexing
leaves the pair layout, and compression can replace the root by a deep
descendant, so the root need not cover the bounding volume.) -/
theorem C5_constructor_region (dim : ℕ) (range : List ℚ) (hdim : dim ≤ 2) :
    (∀ d < dim, coord (initMid dim range) d =
      (coord range (2 * d) + coord range (2 * d + 1)) / 2) ∧
    initRadius dim range = specInitRadius dim range ∧
    ∀ (P : ℕ → Pt) (n : ℕ) (fn : EndBuildFn) (fuel : ℕ) (root : Node),
      buildRoot dim P n range fn fuel = some root →
      regionSub dim root.mid root.radius (initMid dim range) (initRadius dim range) := by
  have hidx : ∀ d < dim, d * dim = 2 * d := by
    intro d hd
    interval_cases dim <;> omega
  refine ⟨?_, ?_, ?_⟩
  · intro d hd
    unfold initMid coord
    rw [List.getD_eq_getElem?_getD, List.getElem?_map]
    rw [List.getElem?_range hd]
    simp only [Option.map_some', Option.getD_some]
    rw [hidx d hd]
  · unfold initRadius specInitRadius
    apply List.foldl_ext
    intro a d hd
    have hd' : d < dim := List.mem_range.mp hd
    rw [hidx d hd']
    dsimp only
    rcases le_or_lt ((coord range (2 * d + 1) - coord range (2 * d)) / 2) a with h | h
    · rw [if_neg (by linarith), max_eq_left h]
    · rw [if_pos h, max_eq_right (le_of_lt h)]
  · intro P n fn fuel root hbuild
    unfold buildRoot at hbuild
    exact (worker_region (initRadius_nonneg dim range) hbuild).2.2

/-- **C6** (corrected).  In every built tree, a node stored in a parent's
child slot `m` has radius `parent.radius / 2^j` for some `j ≥ 1` — but not
necessarily `j = 1`, because compression splices deep descendants into the
slot — and its region is contained in the orthant region centered at
`parent.mid[d] ± parent.radius/2` given by the bit pattern of `m`. -/
theorem C6_child_slot_geometry (P : ℕ → Pt) (dim n : ℕ) (range : List ℚ)
    (fn : EndBuildFn) (fuel : ℕ) (root : Node)
    (hbuild : buildRoot dim P n range fn fuel = some root) :
    ∀ u ∈ root.allNodes, ∀ cs, u.children = some cs →
      cs.length = 2 ^ dim ∧
      ∀ m c, cs.getD m none = some c →
        ∃ j, 1 ≤ j ∧ c.radius = u.radius / 2 ^ j ∧
          regionSub dim c.mid c.radius
            (childMid dim u.mid (u.radius / 2) m) (u.radius / 2) := by
  unfold buildRoot at hbuild
  intro u hu cs hcs
  rcases worker_child_slots (initRadius_nonneg dim range) hbuild u hu cs hcs with
    ⟨hlen, _, hslot⟩
  exact ⟨hlen, hslot⟩

/-- **C7** (confirmed).  On every built tree the list returned by `knn` is
non-decreasing in its squared-distance component, and its length never
exceeds `k` nor the number `n` of input points. -/
theorem C7_result_sorted_bounded (P : ℕ → Pt) (dim n k : ℕ) (range : List ℚ)
    (q : Pt) (eps : ℚ) (junk : ℕ → ℚ) (fuel fuel₂ : ℕ) (root : Node)
    (res : List (ℕ × ℚ))
    (hbuild : buildRoot dim P n range defaultEndBuildFn fuel = some root)
    (hrun : knn P dim root k q eps junk fuel₂ = some (.ok res)) :
    sortedQ res ∧ res.length ≤ k ∧ res.length ≤ n := by
  unfold buildRoot at hbuild
  unfold knn at hrun
  have hleaf : (↑root.leafIdxs : Multiset ℕ) = ↑(List.range n) :=
    worker_leaves hbuild
  have hpq : pqMS [(root, (0 : ℚ))] = ↑(List.range n) := by
    rw [pqMS_cons]
    simp only [pqMS, List.map_nil, List.sum_nil, add_zero]
    exact hleaf
  rcases knnRun_basic P dim k q eps junk (↑(List.range n)) sortedQ_nil (by simp)
      (by rw [List.map_nil, hpq]; simp) hrun with ⟨hs, hlen, hms⟩
  refine ⟨hs, hlen, ?_⟩
  have hcard := Multiset.card_le_card hms
  simpa using hcard

/-- **C8** (corrected).  When every input point lies in the region the
constructor actually computes from `coordinate_range`, the built tree stores
exactly the input points at its leaves, and every leaf's stored point passes
that leaf's `in_node` test (the region contains the point, with room to
spare against the `locate_eps = 0.001` tolerance).  For `dim ≥ 3` a range
that bounds the points in the per-dimension pair layout need not satisfy
this, because the constructor misreads it. -/
theorem C8_leaf_in_node (P : ℕ → Pt) (dim n : ℕ) (range : List ℚ) (fuel : ℕ)
    (root : Node)
    (hin : ∀ i < n, inRegion dim (initMid dim range) (initRadius dim range) (P i))
    (hbuild : buildRoot dim P n range defaultEndBuildFn fuel = some root) :
    (↑root.leafIdxs : Multiset ℕ) = ↑(List.range n) ∧
    ∀ u ∈ root.allNodes, ∀ i : ℕ, u.children = none → u.pt = some i →
      u.in_node (P i) dim = true := by
  unfold buildRoot at hbuild
  refine ⟨worker_leaves hbuild, ?_⟩
  intro u hu i hc hp
  have hmem : i ∈ u.leafIdxs := by
    rw [leafIdxs_of_leaf hc hp]
    exact List.mem_singleton.mpr rfl
  have hreg := worker_contain hbuild (fun j hj => hin j (List.mem_range.mp hj)) u hu i hmem
  exact in_node_of_inRegion hreg

/-- **C9** (confirmed).  The `knn` search loop terminates on every built
(finite) tree: a fuel budget equal to the number of nodes always suffices
for the loop to return, by exhausting the queue or breaking early. -/
theorem C9_knn_terminates (P : ℕ → Pt) (dim k : ℕ) (q : Pt) (eps : ℚ)
    (junk : ℕ → ℚ) (root : Node) :
    ∃ out, knn P dim root k q eps junk root.size = some out := by
  unfold knn
  exact knnLoop_terminates P dim k q eps junk (by simp)

/-- **C10** (confirmed).  Every node of a tree built with the default
`EndBuildFn` is either a leaf with a stored point and null children array, or
an internal node with a children array and no point; consequently the leaf
branch of `knn` never dereferences an absent point on such trees. -/
theorem C10_leaf_internal_dichotomy (P : ℕ → Pt) (dim n : ℕ) (range : List ℚ)
    (fuel : ℕ) (root : Node)
    (hbuild : buildRoot dim P n range defaultEndBuildFn fuel = some root) :
    (∀ u ∈ root.allNodes,
      (∃ i, u.pt = some i ∧ u.children = none) ∨
      (∃ cs, u.children = some cs ∧ u.pt = none)) ∧
    ∀ (k : ℕ) (q : Pt) (eps : ℚ) (junk : ℕ → ℚ) (fuel₂ : ℕ),
      knn P dim root k q eps junk fuel₂ ≠ some .nullDeref := by
  unfold buildRoot at hbuild
  have hdich := worker_dichotomy hbuild
  refine ⟨hdich, ?_⟩
  intro k q eps junk fuel₂
  unfold knn
  refine knnLoop_no_crash P dim k q eps junk ?_
  intro e he v hv hvc
  rcases List.mem_singleton.mp he with rfl
  rcases hdich v hv with ⟨i, hp, _⟩ | ⟨cs, hc, _⟩
  · exact ⟨i, hp⟩
  · rw [hvc] at hc
    cases hc

/-! ## Concrete examples

Small instances, evaluated on the embedded code, used to witness the claim
theorems and to refute the original claim sentences where they fail. -/

def exP : ℕ → Pt := fun i => [[(0:ℚ)], [(2:ℚ)]].getD i []

def exRange : List ℚ := [0, 2]

def exL0 : Node := Node.mk [1/2] (1/2) none (some 0)

def exL1 : Node := Node.mk [3/2] (1/2) none (some 1)

def exT : Node := Node.mk [1] 1 (some [some exL0, some exL1]) none

def c4P : ℕ → Pt := fun _ => [0, 9]

def c4Range : List ℚ := [-1, 1, 9, 11]

def c4Q : Pt := [0, 0]

def c4Junk : ℕ → ℚ := fun _ => -100

def c4T : Node := Node.mk [0, 10] 1 none (some 0)

def c5P : ℕ → Pt := fun i => [[(0:ℚ)], [(1:ℚ)]].getD i []

def c5L0 : Node := Node.mk [1/4] (1/4) none (some 0)

def c5L1 : Node := Node.mk [3/4] (1/4) none (some 1)

def c5T : Node := Node.mk [1/2] (1/2) (some [some c5L0, some c5L1]) none

def c6P : ℕ → Pt := fun i => [[(0:ℚ)], [(1:ℚ)], [(7:ℚ)]].getD i []

def c6C0 : Node := Node.mk [1/2] (1/2)
  (some [some (Node.mk [1/4] (1/4) none (some 0)),
         some (Node.mk [3/4] (1/4) none (some 1))]) none

def c6C1 : Node := Node.mk [6] 2 none (some 2)

def c6T : Node := Node.mk [4] 4 (some [some c6C0, some c6C1]) none

def c8P : ℕ → Pt := fun _ => [0, 0, 100]

def c8Range : List ℚ := [0, 1, 0, 1, 0, 100]

def c8T : Node := Node.mk [1/2, 1/2, 0] (1/2) none (some 0)

def c3Node : Node := Node.mk [0, 0] 1 none none

/-- **C4** (code bug).  The pruning bound is *not* sound: the loop of
`min_pt_dist_to_node` executes `if (dist < min_dist) min_dist = dist` with
`dist` never assigned on a dimension where the query is inside the region, so
the comparison reads an indeterminate value.  On the tree built from the
single point `(0, 9)` (a leaf whose region contains its point), query
`(0, 0)` and indeterminate reads resolving to `-100`, the computed bound is
`10000`, strictly above the true squared distance `81`. -/
theorem C4_pruning_bound_unsound :
    buildRoot 2 c4P 1 c4Range defaultEndBuildFn 1 = some c4T ∧
    c4T.children = none ∧ c4T.pt = some 0 ∧
    inRegion 2 c4T.mid c4T.radius (c4P 0) ∧
    sqDist 2 (c4P 0) c4Q = 81 ∧
    minPtDistToNode 2 c4Junk c4Q c4T = 10000 ∧
    ¬ minPtDistToNode 2 c4Junk c4Q c4T ≤ sqDist 2 (c4P 0) c4Q := by
  have h1 : buildRoot 2 c4P 1 c4Range defaultEndBuildFn 1 = some c4T := by
    norm_num [buildRoot, worker, initMid, initRadius, copyMid, coord,
      c4P, c4Range, defaultEndBuildFn, c4T, List.range_succ]
  have h5 : sqDist 2 (c4P 0) c4Q = 81 := by
    norm_num [sqDist, coord, c4P, c4Q, List.range_succ]
  have h6 : minPtDistToNode 2 c4Junk c4Q c4T = 10000 := by
    norm_num [minPtDistToNode, mpdStep, coord, c4Junk, c4Q, c4T,
      Node.mid, Node.radius, List.range_succ]
  refine ⟨h1, rfl, rfl, ?_, h5, h6, ?_⟩
  · intro d hd
    interval_cases d <;>
      norm_num [c4T, c4P, coord, Node.mid, Node.radius]
  · rw [h5, h6]
    norm_num

/-- Witness for C1: on the 1-d point set `{[0], [2]}` with range `[0, 2]`,
query `[0]` and `k = 1`, the query returns `[(0, 0)]` and the amended theorem
yields agreement with the brute-force scan. -/
theorem C1_knn_exact_eps_zero_witness :
    sameIndexSet [(0, 0)] (bruteForce exP 1 2 1 [0]) = true := by
  have hbuild : buildRoot 1 exP 2 exRange defaultEndBuildFn 3 = some exT := by
    norm_num [buildRoot, worker, initMid, initRadius, orthantIndex, childMid, copyMid,
      coord, exP, exRange, defaultEndBuildFn, exT, exL0, exL1,
      List.range_succ, List.mapM_cons, List.mapM_nil, List.mapM.loop, List.filter,
      List.filterMap_cons]
  have hrun : knn exP 1 exT 1 [0] 0 zeroJunk 3 = some (.ok [(0, 0)]) := by
    norm_num [knn, knnLoop, popMin, minPtDistToNode, mpdStep, sqDist, insertResult,
      kthDist, ltKth, kthLe, Node.children, Node.pt, Node.mid, Node.radius, coord,
      exT, exL0, exL1, exP, zeroJunk, List.range_succ, List.filterMap_cons]
  have hB : bruteFull exP 1 2 [0] = [(0, 0), (1, 4)] := by
    norm_num [bruteFull, insertScan, sqDist, coord, exP, List.range_succ]
  refine C1_knn_exact_eps_zero exP 1 2 1 [0] exRange zeroJunk exT 3 3 [(0, 0)]
    (by norm_num) (by norm_num) (fun d => le_refl 0) ?_ hbuild ?_ hrun
  · intro i hi
    interval_cases i <;>
      (intro d hd
       interval_cases d <;>
         norm_num [initMid, initRadius, exP, exRange, coord, List.range_succ])
  · intro y hy z hz
    rw [hB] at hy hz
    simp at hy hz
    subst hy
    subst hz
    norm_num

/-- Counterexample to the original C1 sentence: with the same two points but
query `[1]`, both points are at squared distance `1`; the heap search reports
the later-found point `1` while the brute-force scan keeps the first point
`0`, so the returned index sets differ. -/
theorem C1_tie_counterexample :
    buildRoot 1 exP 2 exRange defaultEndBuildFn 3 = some exT ∧
    knn exP 1 exT 1 [1] 0 zeroJunk 5 = some (.ok [(1, 1)]) ∧
    bruteForce exP 1 2 1 [1] = [(0, 1)] ∧
    sameIndexSet [(1, 1)] [(0, 1)] = false := by
  refine ⟨?_, ?_, ?_, by decide⟩
  · norm_num [buildRoot, worker, initMid, initRadius, orthantIndex, childMid, copyMid,
      coord, exP, exRange, defaultEndBuildFn, exT, exL0, exL1,
      List.range_succ, List.mapM_cons, List.mapM_nil, List.mapM.loop, List.filter,
      List.filterMap_cons]
  · norm_num [knn, knnLoop, popMin, minPtDistToNode, mpdStep, sqDist, insertResult,
      kthDist, ltKth, kthLe, Node.children, Node.pt, Node.mid, Node.radius, coord,
      exT, exL0, exL1, exP, zeroJunk, List.range_succ, List.filterMap_cons]
  · norm_num [bruteForce, bruteFull, insertScan, sqDist, coord, exP, List.range_succ]

/-- Witness for C2: in the tree built from `{[0], [2]}` the root's children
array has both slots present. -/
theorem C2_compression_invariant_witness :
    2 ≤ (([some exL0, some exL1] : List (Option Node)).filterMap id).length := by
  have hbuild : buildRoot 1 exP 2 exRange defaultEndBuildFn 3 = some exT := by
    norm_num [buildRoot, worker, initMid, initRadius, orthantIndex, childMid, copyMid,
      coord, exP, exRange, defaultEndBuildFn, exT, exL0, exL1,
      List.range_succ, List.mapM_cons, List.mapM_nil, List.mapM.loop, List.filter,
      List.filterMap_cons]
  exact C2_compression_invariant exP 1 2 exRange 3 exT (by norm_num) hbuild exT
    (mem_allNodes_self exT) [some exL0, some exL1] rfl

/-- Witness for C3: for the 1-d node centered at `0` with radius `1` and the
query `[3]` (outside on every dimension), the code returns the square of the
smallest — here the only — per-dimension gap. -/
theorem C3_min_pt_dist_characterization_witness :
    ∃ m, minPtDistToNode 1 zeroJunk [3] (Node.mk [0] 1 none none) = m * m ∧
      (∃ d < 1, m = gapAt [3] (Node.mk [0] 1 none none) d) ∧
      ∀ d < 1, m ≤ gapAt [3] (Node.mk [0] 1 none none) d := by
  refine (C3_min_pt_dist_characterization 1 zeroJunk [3] (Node.mk [0] 1 none none)).2
    (by norm_num) ?_
  intro d hd
  interval_cases d
  norm_num [mpdInsideAt, coord, Node.mid, Node.radius]

/-- Counterexample to the original C3 sentence: for the 2-d node centered at
`(0, 0)` with radius `1` and query `(2, 3)` — outside on both dimensions,
with gaps `1` and `2` — the code returns the smallest gap squared `1`, not
the largest gap squared `4` claimed by the spec. -/
theorem C3_smallest_not_largest_counterexample :
    (∀ d < 2, ¬ mpdInsideAt [2, 3] c3Node.mid c3Node.radius d) ∧
    minPtDistToNode 2 zeroJunk [2, 3] c3Node = 1 ∧
    specMinPtDist 2 [2, 3] c3Node = 4 ∧
    minPtDistToNode 2 zeroJunk [2, 3] c3Node ≠ specMinPtDist 2 [2, 3] c3Node := by
  have h2 : minPtDistToNode 2 zeroJunk [2, 3] c3Node = 1 := by
    norm_num [minPtDistToNode, mpdStep, coord, c3Node, Node.mid, Node.radius,
      List.range_succ]
  have h3 : specMinPtDist 2 [2, 3] c3Node = 4 := by
    norm_num [specMinPtDist, gapAt, coord, c3Node, Node.mid, Node.radius,
      List.range_succ]
  refine ⟨?_, h2, h3, ?_⟩
  · intro d hd
    interval_cases d <;>
      norm_num [mpdInsideAt, c3Node, coord, Node.mid, Node.radius]
  · rw [h2, h3]
    norm_num

/-- Witness for C5: at `dim = 1` with range `[0, 2]` the constructor's center
and radius match the spec's pair-layout formulas, and the root of the tree
built from `{[0], [2]}` sits inside the initial region. -/
theorem C5_constructor_region_witness :
    coord (initMid 1 exRange) 0 =
      (coord exRange (2 * 0) + coord exRange (2 * 0 + 1)) / 2 ∧
    initRadius 1 exRange = specInitRadius 1 exRange ∧
    regionSub 1 exT.mid exT.radius (initMid 1 exRange) (initRadius 1 exRange) := by
  have hbuild : buildRoot 1 exP 2 exRange defaultEndBuildFn 3 = some exT := by
    norm_num [buildRoot, worker, initMid, initRadius, orthantIndex, childMid, copyMid,
      coord, exP, exRange, defaultEndBuildFn, exT, exL0, exL1,
      List.range_succ, List.mapM_cons, List.mapM_nil, List.mapM.loop, List.filter,
      List.filterMap_cons]
  exact ⟨(C5_constructor_region 1 exRange (by norm_num)).1 0 (by norm_num),
    (C5_constructor_region 1 exRange (by norm_num)).2.1,
    (C5_constructor_region 1 exRange (by norm_num)).2.2 exP 2 defaultEndBuildFn 3
      exT hbuild⟩

/-- Counterexample to the original C5 sentence: at `dim = 3` the constructor
reads `range[d*3]`, `range[d*3+1]`, which leaves the `(min, max)` pair layout
— on the range `[0,1, 0,1, 0,100]` the computed center is `[1/2, 1/2, 0]`,
not the midpoint `50` on dimension `2`; and at `dim = 1`, compression can
replace the root by a deep descendant, so the built root's region need not
cover the bounding volume computed from the caller's range. -/
theorem C5_counterexample :
    (initMid 3 [0, 1, 0, 1, 0, 100] = [1/2, 1/2, 0] ∧
      coord (initMid 3 [0, 1, 0, 1, 0, 100]) 2 ≠
        (coord [0, 1, 0, 1, 0, 100] (2 * 2) + coord [0, 1, 0, 1, 0, 100] (2 * 2 + 1)) / 2) ∧
    (buildRoot 1 c5P 2 [0, 8] defaultEndBuildFn 5 = some c5T ∧
      ¬ regionSub 1 (initMid 1 [0, 8]) (initRadius 1 [0, 8]) c5T.mid c5T.radius) := by
  refine ⟨⟨?_, ?_⟩, ?_, ?_⟩
  · norm_num [initMid, coord, List.range_succ]
  · norm_num [initMid, coord, List.range_succ]
  · norm_num [buildRoot, worker, initMid, initRadius, orthantIndex, childMid, copyMid,
      coord, c5P, defaultEndBuildFn, c5T, c5L0, c5L1,
      List.range_succ, List.mapM_cons, List.mapM_nil, List.mapM.loop, List.filter,
      List.filterMap_cons]
  · intro h
    have := h 0 (by omega)
    norm_num [initMid, initRadius, coord, c5T, Node.mid, Node.radius,
      List.range_succ] at this

/-- Witness for C6: in the tree built from `{[0], [2]}` the root's slot-`0`
child has radius `parent.radius / 2^j` with `j = 1` and sits inside its
orthant region. -/
theorem C6_child_slot_geometry_witness :
    ∃ j, 1 ≤ j ∧ exL0.radius = exT.radius / 2 ^ j ∧
      regionSub 1 exL0.mid exL0.radius (childMid 1 exT.mid (exT.radius / 2) 0)
        (exT.radius / 2) := by
  have hbuild : buildRoot 1 exP 2 exRange defaultEndBuildFn 3 = some exT := by
    norm_num [buildRoot, worker, initMid, initRadius, orthantIndex, childMid, copyMid,
      coord, exP, exRange, defaultEndBuildFn, exT, exL0, exL1,
      List.range_succ, List.mapM_cons, List.mapM_nil, List.mapM.loop, List.filter,
      List.filterMap_cons]
  exact (C6_child_slot_geometry exP 1 2 exRange defaultEndBuildFn 3 exT hbuild exT
    (mem_allNodes_self exT) [some exL0, some exL1] rfl).2 0 exL0 rfl

/-- Counterexample to the original C6 sentence: in the tree built from
`{[0], [1], [7]}` with range `[0, 8]`, compression splices a depth-3
descendant (radius `1/2`) into the root's slot `0`, so that child's radius is
not half the root's radius `4`. -/
theorem C6_counterexample :
    buildRoot 1 c6P 3 [0, 8] defaultEndBuildFn 5 = some c6T ∧
    c6T.children = some [some c6C0, some c6C1] ∧
    c6T.radius = 4 ∧ c6C0.radius = 1 / 2 ∧
    c6C0.radius ≠ c6T.radius / 2 := by
  refine ⟨?_, rfl, rfl, rfl, ?_⟩
  · norm_num [buildRoot, worker, initMid, initRadius, orthantIndex, childMid, copyMid,
      coord, c6P, defaultEndBuildFn, c6T, c6C0, c6C1,
      List.range_succ, List.mapM_cons, List.mapM_nil, List.mapM.loop, List.filter,
      List.filterMap_cons]
  · norm_num [c6C0, c6T, Node.radius]

/-- Witness for C7: the query of the witness instance returns the sorted
one-entry list `[(0, 0)]`, within both bounds. -/
theorem C7_result_sorted_bounded_witness :
    sortedQ [((0:ℕ), (0:ℚ))] ∧ ([((0:ℕ), (0:ℚ))] : List (ℕ × ℚ)).length ≤ 1 ∧
      ([((0:ℕ), (0:ℚ))] : List (ℕ × ℚ)).length ≤ 2 := by
  have hbuild : buildRoot 1 exP 2 exRange defaultEndBuildFn 3 = some exT := by
    norm_num [buildRoot, worker, initMid, initRadius, orthantIndex, childMid, copyMid,
      coord, exP, exRange, defaultEndBuildFn, exT, exL0, exL1,
      List.range_succ, List.mapM_cons, List.mapM_nil, List.mapM.loop, List.filter,
      List.filterMap_cons]
  have hrun : knn exP 1 exT 1 [0] 0 zeroJunk 3 = some (.ok [(0, 0)]) := by
    norm_num [knn, knnLoop, popMin, minPtDistToNode, mpdStep, sqDist, insertResult,
      kthDist, ltKth, kthLe, Node.children, Node.pt, Node.mid, Node.radius, coord,
      exT, exL0, exL1, exP, zeroJunk, List.range_succ, List.filterMap_cons]
  exact C7_result_sorted_bounded exP 1 2 1 exRange [0] 0 zeroJunk 3 3 exT [(0, 0)]
    hbuild hrun

/-- Witness for C8: the slot-`0` leaf of the tree built from `{[0], [2]}`
contains its stored point `[0]` within the `in_node` tolerance. -/
theorem C8_leaf_in_node_witness : exL0.in_node (exP 0) 1 = true := by
  have hbuild : buildRoot 1 exP 2 exRange defaultEndBuildFn 3 = some exT := by
    norm_num [buildRoot, worker, initMid, initRadius, orthantIndex, childMid, copyMid,
      coord, exP, exRange, defaultEndBuildFn, exT, exL0, exL1,
      List.range_succ, List.mapM_cons, List.mapM_nil, List.mapM.loop, List.filter,
      List.filterMap_cons]
  have hin : ∀ i < 2, inRegion 1 (initMid 1 exRange) (initRadius 1 exRange) (exP i) := by
    intro i hi
    interval_cases i <;>
      (intro d hd
       interval_cases d <;>
         norm_num [initMid, initRadius, exP, exRange, coord, List.range_succ])
  have hmem : exL0 ∈ exT.allNodes := by
    show exL0 ∈ (Node.mk [1] 1 (some [some exL0, some exL1]) none).allNodes
    rw [allNodes_some]
    simp [Node.allNodes.allAux, exL0, exL1, allNodes_none]
  exact (C8_leaf_in_node exP 1 2 exRange 3 exT hin hbuild).2 exL0 hmem 0 rfl rfl

/-- Counterexample to the original C8 sentence: at `dim = 3` the pair-layout
range `[0,1, 0,1, 0,100]` bounds the single input point `(0, 0, 100)` in
every dimension, yet the built leaf's region (misread by the constructor)
does not contain the point and `in_node` rejects it. -/
theorem C8_counterexample :
    (∀ d < 3, coord c8Range (2 * d) ≤ coord (c8P 0) d ∧
      coord (c8P 0) d ≤ coord c8Range (2 * d + 1)) ∧
    buildRoot 3 c8P 1 c8Range defaultEndBuildFn 1 = some c8T ∧
    c8T.children = none ∧ c8T.pt = some 0 ∧
    c8T.in_node (c8P 0) 3 = false := by
  refine ⟨?_, ?_, rfl, rfl, ?_⟩
  · intro d hd
    interval_cases d <;> norm_num [c8Range, c8P, coord]
  · norm_num [buildRoot, worker, initMid, initRadius, copyMid, coord,
      c8P, c8Range, defaultEndBuildFn, c8T, List.range_succ]
  · norm_num [Node.in_node, c8T, c8P, coord, Node.mid, Node.radius, locateEps,
      List.range_succ]

/-- Witness for C10: the witness query on the tree built from `{[0], [2]}`
does not crash. -/
theorem C10_leaf_internal_dichotomy_witness :
    knn exP 1 exT 1 [0] 0 zeroJunk 3 ≠ some .nullDeref := by
  have hbuild : buildRoot 1 exP 2 exRange defaultEndBuildFn 3 = some exT := by
    norm_num [buildRoot, worker, initMid, initRadius, orthantIndex, childMid, copyMid,
      coord, exP, exRange, defaultEndBuildFn, exT, exL0, exL1,
      List.range_succ, List.mapM_cons, List.mapM_nil, List.mapM.loop, List.filter,
      List.filterMap_cons]
  exact (C10_leaf_internal_dichotomy exP 1 2 exRange 3 exT hbuild).2 1 [0] 0 zeroJunk 3
